import Mathlib

/-!
Verification development for the TypeScript declaration-extraction engine
(`src/api/parsing.rs`) and the module graph builder (`src/api/module_set.rs`).

The tree-sitter syntax tree of a declaration file is embedded as the inductive
type `Stmt` below: each constructor corresponds to one of the node shapes the
extraction queries in `parsing.rs` can match (declarations, ambient
declarations, export statements, namespaces, imports, the four export forms).
Node source text is reconstructed by concatenating the keyword tokens the
wrapper nodes contribute (`declare `, `export `) with the stored text of the
inner declaration, mirroring the byte-range widening performed by
`extract_symbols`.  Hash maps (`aliases`) are modelled as association lists in
insertion order.
-/

namespace TSExtractor

/-- `daipendency_extractor::Symbol` — name plus exact source text. -/
structure Symbol where
  name : String
  source_code : String
deriving DecidableEq, Repr

/-- `ImportTarget` from `src/api/module.rs`. -/
inductive ImportTarget where
  | Default (name : String)
  | Namespace (name : String)
  | Named (names : List String) (aliases : List (String × String))
deriving DecidableEq, Repr

/-- `ExportTarget` from `src/api/module.rs`. -/
inductive ExportTarget where
  | Namespace (name : String)
  | Named (names : List String) (aliases : List (String × String))
  | Barrel
deriving DecidableEq, Repr

/-- `TypeScriptSymbol` from `src/api/module.rs`. -/
inductive TypeScriptSymbol where
  | Symbol (symbol : Symbol) (is_exported : Bool)
  | Namespace (name : String) (jsdoc : Option String)
      (content : List TypeScriptSymbol) (is_exported : Bool)
  | ModuleImport (source_module : String) (target : ImportTarget)
  | ModuleExport (source_module : Option String) (target : ExportTarget)

/-- The body of a class/interface/function/type-alias/enum/variable
declaration node: its identifier and its exact source text (the text of the
`@declaration` capture of `SYMBOLS_QUERY`). -/
structure DeclNode where
  name : String
  src : String
deriving DecidableEq, Repr

/-- A child of an `import_clause` node, in source order: a bare identifier
(default import), a `namespace_import`, or a `named_imports` block whose
specifiers carry an optional alias. -/
inductive ClauseChild where
  | ident (name : String)
  | nsImport (name : String)
  | namedImports (specs : List (String × Option String))
deriving DecidableEq, Repr

/-- How a top-level `internal_module` node is wrapped: bare (under an
`expression_statement`), under an `export_statement`, or under an
`ambient_declaration` (`declare namespace`). -/
inductive NsWrap where
  | plain
  | exported
  | ambientW
deriving DecidableEq, Repr

/-- A tree-sitter statement-level node of a TypeScript declaration file,
restricted to the shapes the queries of `parsing.rs` inspect. -/
inductive Stmt where
  /-- A `comment` node (text includes the comment delimiters). -/
  | comment (text : String)
  /-- A bare declaration statement. -/
  | decl (d : DeclNode)
  /-- `ambient_declaration` wrapping a declaration (`declare <decl>`). -/
  | ambient (d : DeclNode)
  /-- `export_statement` wrapping a declaration, optionally with the
  `default` keyword and an `ambient_declaration` in between. -/
  | exportD (isDefault : Bool) (isAmbient : Bool) (d : DeclNode)
  /-- `internal_module` with its wrapper and its `statement_block` body. -/
  | ns (wrap : NsWrap) (name : String) (body : List Stmt)
  /-- `import_statement` with an `import_clause` and a string source. -/
  | importS (clause : List ClauseChild) (source : String)
  /-- `export_statement` with an `export_clause` (specifier list, each with
  an optional alias) and an optional string source. -/
  | exportClause (specs : List (String × Option String)) (source : Option String)
  /-- CommonJS export: `export = name;`. -/
  | exportEquals (name : String)
  /-- `export * as name from 'source';`. -/
  | exportNsFrom (name : String) (source : String)
  /-- Barrel export: `export * from 'source';`. -/
  | exportBarrel (source : String)
  /-- `export default <identifier>;`. -/
  | exportDefault (name : String)

/-- `str::starts_with`, computed on the character list (so that concrete
instances reduce by `rfl`). -/
def strStartsWith (s p : String) : Bool := p.data.isPrefixOf s.data

/-- `get_jsdoc` (parsing.rs:135): the node must be a comment whose text
starts with `/**`. -/
def get_jsdoc : Option Stmt → Option String
  | some (.comment t) => if strStartsWith t "/**" then some t else none
  | _ => none

/-- `is_module_jsdoc` (parsing.rs:142): the comment contains `@file`,
`@fileoverview` or `@module`. -/
def is_module_jsdoc (comment : String) : Bool :=
  decide ("@file".data <:+: comment.data) ||
  decide ("@fileoverview".data <:+: comment.data) ||
  decide ("@module".data <:+: comment.data)

/-- The name of the matched declaration, the source text of the node after
widening to the `ambient_declaration` / `export_statement` wrappers
(parsing.rs:235-245), and the resulting `is_exported` flag. -/
def declInfo : Stmt → Option (String × String × Bool)
  | .decl d => some (d.name, d.src, false)
  | .ambient d => some (d.name, "declare " ++ d.src, false)
  | .exportD isDef isAmb d =>
      some (d.name,
        "export " ++ (if isDef then "default " else "")
          ++ (if isAmb then "declare " else "") ++ d.src,
        true)
  | _ => none

/-- One step of `extract_symbols` (parsing.rs:198-269) for a statement at
the extraction root with its preceding sibling: widen to the wrappers, then
extend the start boundary to an immediately preceding non-module-level JSDoc
comment (parsing.rs:247-256). -/
def topDeclSymbol (prev : Option Stmt) (s : Stmt) : Option TypeScriptSymbol :=
  match declInfo s with
  | none => none
  | some (n, widened, exp) =>
      let code := match get_jsdoc prev with
        | some j => if is_module_jsdoc j then widened else j ++ "\n" ++ widened
        | none => widened
      some (.Symbol ⟨n, code⟩ exp)

/-- `extract_symbols`, iterating over the root's statements while tracking
the previous sibling.  Declaration matches lexically inside a namespace body
are skipped by `has_namespace_ancestor` (parsing.rs:226-228), so the scan
does not descend into `internal_module` bodies. -/
def extract_symbols_aux (prev : Option Stmt) : List Stmt → List TypeScriptSymbol
  | [] => []
  | s :: rest => (topDeclSymbol prev s).toList ++ extract_symbols_aux (some s) rest

/-- `extract_symbols` (parsing.rs:198). -/
def extract_symbols (l : List Stmt) : List TypeScriptSymbol :=
  extract_symbols_aux none l

/-- `HashMap::insert` on the alias map, modelled on association lists:
replaces any existing binding of the key. -/
def insertAlias (m : List (String × String)) (k v : String) : List (String × String) :=
  (m.filter (fun kv => kv.1 != k)) ++ [(k, v)]

/-- Alias map accumulated by the named-imports loop (parsing.rs:340-357). -/
def aliasesOf (specs : List (String × Option String)) : List (String × String) :=
  specs.foldl
    (fun acc nv => match nv.2 with
      | some al => insertAlias acc nv.1 al
      | none => acc)
    []

/-- Decomposition of an `import_clause` into one `ModuleImport` per present
form, in child order (parsing.rs:316-365). -/
def importTargetsOfClause (clause : List ClauseChild) (source_module : String) :
    List TypeScriptSymbol :=
  clause.map fun child =>
    match child with
    | .ident n => .ModuleImport source_module (.Default n)
    | .nsImport n => .ModuleImport source_module (.Namespace n)
    | .namedImports specs =>
        .ModuleImport source_module (.Named (specs.map (·.1)) (aliasesOf specs))

mutual

/-- Import matches contributed by one statement.  `IMPORT_QUERY` runs over
the whole subtree, so the scan descends into namespace bodies (there is no
namespace-ancestor filter in `extract_imports`, parsing.rs:282-371). -/
def stmtImports : Stmt → List TypeScriptSymbol
  | .importS clause src => importTargetsOfClause clause src
  | .ns _ _ body => stmtsImports body
  | _ => []
termination_by structural s => s

/-- Import matches of a statement list, in document order. -/
def stmtsImports : List Stmt → List TypeScriptSymbol
  | [] => []
  | s :: rest => stmtImports s ++ stmtsImports rest
termination_by structural l => l

end

/-- `extract_imports` (parsing.rs:282). -/
def extract_imports (l : List Stmt) : List TypeScriptSymbol :=
  stmtsImports l

/-- The mutable accumulation state of `extract_exports`
(parsing.rs:469-471). -/
structure ExportAcc where
  current_names : List String
  current_aliases : List (String × String)
  current_source : Option String
deriving DecidableEq, Repr

/-- `emit_accumulated_exports` (parsing.rs:563-578): pushes a
`ModuleExport::Named` and empties the buffers only when the name buffer is
non-empty; `current_source` is left unchanged by the helper itself. -/
def emitAcc (st : ExportAcc) : List TypeScriptSymbol × ExportAcc :=
  if st.current_names = [] then ([], st)
  else
    ([.ModuleExport st.current_source (.Named st.current_names st.current_aliases)],
     { st with current_names := [], current_aliases := [] })

/-- One match surfaced by `EXPORTS_QUERY`: one per export specifier (with
`isLast` recording whether the specifier has a next named sibling), or a
CommonJS / namespace / barrel export match. -/
inductive ExportMatch where
  | specifier (name : String) (aliasName : Option String) (source : Option String) (isLast : Bool)
  | commonjs (name : String)
  | nsExport (name : String) (source : String)
  | barrel (source : String)
deriving DecidableEq, Repr

/-- The body of the `matches.for_each` loop of `extract_exports`
(parsing.rs:473-558), threading the emitted list and the accumulation
state. -/
def exportStep (acc : List TypeScriptSymbol × ExportAcc) (m : ExportMatch) :
    List TypeScriptSymbol × ExportAcc :=
  let out := acc.1
  let st := acc.2
  match m with
  | .barrel src => (out ++ [.ModuleExport (some src) .Barrel], st)
  | .nsExport n src => (out ++ [.ModuleExport (some src) (.Namespace n)], st)
  | .commonjs n =>
      let step1 :=
        if (none : Option String) ≠ st.current_source then
          let e := emitAcc st
          (e.1, { e.2 with current_source := none })
        else ([], st)
      let stB := { step1.2 with current_names := step1.2.current_names ++ [n] }
      let e2 := emitAcc stB
      (out ++ step1.1 ++ e2.1, { e2.2 with current_source := none })
  | .specifier n a src isLast =>
      let step1 :=
        if src ≠ st.current_source then
          let e := emitAcc st
          (e.1, { e.2 with current_source := src })
        else ([], st)
      let stB :=
        { step1.2 with
          current_names := step1.2.current_names ++ [n],
          current_aliases :=
            match a with
            | some al => insertAlias step1.2.current_aliases n al
            | none => step1.2.current_aliases }
      if isLast then
        let e2 := emitAcc stB
        (out ++ step1.1 ++ e2.1, { e2.2 with current_source := none })
      else (out ++ step1.1, stB)

/-- The per-specifier matches of one named-export clause; the last specifier
of the statement is the one with no next named sibling. -/
def specifierMatches (src : Option String) : List (String × Option String) → List ExportMatch
  | [] => []
  | [na] => [.specifier na.1 na.2 src true]
  | na :: rest => .specifier na.1 na.2 src false :: specifierMatches src rest

mutual

/-- Export matches contributed by one statement.  `EXPORTS_QUERY` runs over
the whole subtree, so the scan descends into namespace bodies (there is no
namespace-ancestor filter in `extract_exports`, parsing.rs:451-561). -/
def stmtExportMatches : Stmt → List ExportMatch
  | .exportClause specs src => specifierMatches src specs
  | .exportEquals n => [.commonjs n]
  | .exportNsFrom n src => [.nsExport n src]
  | .exportBarrel src => [.barrel src]
  | .ns _ _ body => stmtsExportMatches body
  | _ => []
termination_by structural s => s

/-- Export matches of a statement list, in document order. -/
def stmtsExportMatches : List Stmt → List ExportMatch
  | [] => []
  | s :: rest => stmtExportMatches s ++ stmtsExportMatches rest
termination_by structural l => l

end

/-- The initial accumulation state (empty buffers, no source;
parsing.rs:469-471). -/
def emptyAcc : ExportAcc := ⟨[], [], none⟩

/-- `extract_exports` (parsing.rs:451): a single linear scan of the match
stream through the accumulation state machine, starting from empty buffers. -/
def extract_exports (l : List Stmt) : List TypeScriptSymbol :=
  ((stmtsExportMatches l).foldl exportStep ([], emptyAcc)).1

/-- JSDoc resolution for a namespace (parsing.rs:429-438): the node is
widened to the `export_statement` when exported — in that case its parent is
the file root, which has no previous sibling, so no JSDoc is found; for bare
and `declare` namespaces the preceding sibling of the enclosing top-level
statement is consulted (without the module-level-tag filter). -/
def nsJsdoc (wrap : NsWrap) (prev : Option Stmt) : Option String :=
  match wrap with
  | .exported => none
  | _ => get_jsdoc prev

/-- `is_exported` detection for a namespace (parsing.rs:430-435): true only
when the immediate parent of the `internal_module` is an `export_statement`. -/
def nsIsExported : NsWrap → Bool
  | .exported => true
  | _ => false

mutual

/-- The `Namespace` symbol emitted for one statement of the extraction root
(parsing.rs:408-446): a top-level `internal_module` yields its name, its
JSDoc, the recursive four-category extraction of its body, and its export
flag; namespace matches nested inside another namespace are skipped by
`has_namespace_ancestor` (parsing.rs:415-417), so the scan does not descend
into bodies at this level. -/
def nsSymbolFor (prev : Option Stmt) (s : Stmt) : List TypeScriptSymbol :=
  match s with
  | .ns wrap n body =>
      [.Namespace n (nsJsdoc wrap prev)
        (extract_imports body ++ extract_symbols body
          ++ extract_namespaces_aux none body ++ extract_exports body)
        (nsIsExported wrap)]
  | _ => []
termination_by structural s

/-- `extract_namespaces` (parsing.rs:383-449), iterating with the previous
sibling. -/
def extract_namespaces_aux (prev : Option Stmt) : List Stmt → List TypeScriptSymbol
  | [] => []
  | s :: rest => nsSymbolFor prev s ++ extract_namespaces_aux (some s) rest
termination_by structural l => l

end

/-- `extract_namespaces` (parsing.rs:383). -/
def extract_namespaces (l : List Stmt) : List TypeScriptSymbol :=
  extract_namespaces_aux none l

/-- `get_module_symbols` (parsing.rs:157-170): the four categories are
extracted separately and concatenated in the fixed order imports,
declarations, namespaces, exports. -/
def get_module_symbols (l : List Stmt) : List TypeScriptSymbol :=
  extract_imports l ++ extract_symbols l ++ extract_namespaces l
    ++ extract_exports l

mutual

/-- First match of `DEFAULT_EXPORT_QUERY` in one statement: either
`export default <identifier>` or `export default declare <decl>`. -/
def stmtDefaultExportName : Stmt → Option String
  | .exportDefault n => some n
  | .exportD true true d => some d.name
  | .ns _ _ body => stmtsDefaultExportName body
  | _ => none
termination_by structural s => s

/-- First match of `DEFAULT_EXPORT_QUERY` in a statement list. -/
def stmtsDefaultExportName : List Stmt → Option String
  | [] => none
  | s :: rest =>
      match stmtDefaultExportName s with
      | some n => some n
      | none => stmtsDefaultExportName rest
termination_by structural l => l

end

/-- `extract_default_export_name` (parsing.rs:172-196): the first query
match wins. -/
def extract_default_export_name (l : List Stmt) : Option String :=
  stmtsDefaultExportName l

/-- `ExtractionError` (from the `daipendency_extractor` interface): the two
kinds used by this crate. -/
inductive ExtractionError where
  | Io (msg : String)
  | Malformed (msg : String)
deriving DecidableEq, Repr

/-- A file as handed to the parser: either source text the grammar cannot
represent (the root node reports an error) or a parsed statement list. -/
inductive TsFile where
  | malformed
  | parsed (stmts : List Stmt)

/-- `Module` as assembled by `parse_typescript_file` (parsing.rs:128-132). -/
structure Module where
  jsdoc : Option String
  symbols : List TypeScriptSymbol
  default_export_name : Option String

/-- The `Module` assembled for an error-free tree (parsing.rs:121-132): the
module-level JSDoc is the first child comment filtered by the module-tag
check, and the symbols come from `get_module_symbols` on the root. -/
def mkModule (l : List Stmt) : Module :=
  { jsdoc := (get_jsdoc l.head?).filter (fun s => is_module_jsdoc s),
    symbols := get_module_symbols l,
    default_export_name := extract_default_export_name l }

/-- `parse_typescript_file` (parsing.rs:106-133): a tree with an error node
fails with `Malformed`; otherwise the `Module` is assembled from the root. -/
def parse_typescript_file : TsFile → Except ExtractionError Module
  | .malformed => .error (.Malformed "Failed to parse source file")
  | .parsed l => .ok (mkModule l)

/-- The category a symbol belongs to, in the fixed emission order of
`get_module_symbols`: imports, declarations, namespaces, exports. -/
def category : TypeScriptSymbol → Nat
  | .ModuleImport .. => 0
  | .Symbol .. => 1
  | .Namespace .. => 2
  | .ModuleExport .. => 3


/-!
## Module graph builder (`src/api/module_set.rs`)

File paths are modelled as lists of components of an absolute path
(`FPath`); the filesystem is a finite virtual filesystem `VFS` mapping
canonical paths to file contents, plus a set of canonical directory paths.
`std::fs::canonicalize` is modelled as textual normalization (dropping `.`
and empty components and resolving `..`) followed by an existence check;
the model has no symbolic links.  File contents are represented already
parsed (`TsFile`), fusing `read_to_string` + tree-sitter parsing: `read`
yields the `TsFile`, and `parse_typescript_file` turns it into a `Module`
or a `Malformed` error.
-/

/-- A file path, as a list of components below the filesystem root. -/
abbrev FPath := List String

/-- `Path::display`, used when formatting the `Io` error message. -/
def pathStr (p : FPath) : String := String.intercalate "/" p

/-- Split the character list of a specifier at `/` separators. -/
def splitSlash (acc : List Char) : List Char → List String
  | [] => [String.mk acc.reverse]
  | c :: rest =>
      if c = '/' then String.mk acc.reverse :: splitSlash [] rest
      else splitSlash (c :: acc) rest

/-- The components of a specifier string (`Path::join` appends them). -/
def splitPath (s : String) : List String := splitSlash [] s.data

/-- One step of path normalization: `.` and empty components are dropped,
`..` removes the previous component (at the root it is a no-op, as for a
real absolute path). -/
def normComp (acc : List String) (c : String) : List String :=
  if c = "." ∨ c = "" then acc
  else if c = ".." then acc.dropLast
  else acc ++ [c]

/-- Textual path normalization, the path-algebra part of
`std::fs::canonicalize` (the model has no symlinks). -/
def normalize (p : FPath) : FPath := p.foldl normComp []

/-- `Path::file_stem` of a file name: the whole name when it contains no
`.` past the first character, otherwise the portion before the final `.`. -/
def fileStem (f : String) : String :=
  match (f.data.enum.filter (fun ic => ic.2 == '.' && ic.1 != 0)).getLast? with
  | none => f
  | some ic => String.mk (f.data.take ic.1)

/-- `PathBuf::with_extension` on the final component: the existing
extension (if any) is replaced by `ext`, not appended to.  A path whose
final component has no file name (empty, `.`, `..`) is returned
unchanged, as in `PathBuf::set_extension`. -/
def with_extension (p : FPath) (ext : String) : FPath :=
  match p.getLast? with
  | none => p
  | some f =>
      if f = ".." ∨ f = "." ∨ f = "" then p
      else p.dropLast ++ [fileStem f ++ "." ++ ext]

/-- `Path::parent`: `None` at the root. -/
def parentDir (p : FPath) : Option FPath :=
  if p = [] then none else some p.dropLast

/-- A virtual filesystem: contents keyed by canonical file path, plus the
set of existing directories (canonical paths). -/
structure VFS where
  files : List (FPath × TsFile)
  dirs : List FPath

/-- The canonical paths of the existing regular files. -/
def fileKeys (fs : VFS) : List FPath := fs.files.map (·.1)

/-- `std::fs::canonicalize`: fails when the path does not exist; otherwise
returns the normalized (canonical) path. -/
def canonicalize (fs : VFS) (p : FPath) : Option FPath :=
  let c := normalize p
  if c ∈ fileKeys fs ∨ c ∈ fs.dirs then some c else none

/-- `Path::is_file` (on an existing canonical path). -/
def is_file (fs : VFS) (p : FPath) : Bool := decide (p ∈ fileKeys fs)

/-- `Path::is_dir` (the OS resolves `.`/`..` during lookup). -/
def is_dir (fs : VFS) (p : FPath) : Bool := decide (normalize p ∈ fs.dirs)

/-- `normalise_file_path` (module_set.rs:81-88): canonicalize, then require
an existing regular file. -/
def normalise_file_path (fs : VFS) (p : FPath) : Option FPath :=
  match canonicalize fs p with
  | some c => if is_file fs c then some c else none
  | none => none

/-- `resolve_relative_import` (module_set.rs:112-146). -/
def resolve_relative_import (fs : VFS) (module_path : FPath) (import_path : String) :
    Option FPath :=
  if strStartsWith import_path "./" || strStartsWith import_path "../" then
    match parentDir module_path with
    | none => none
    | some parent_dir =>
      let resolved_path := parent_dir ++ splitPath import_path
      match normalise_file_path fs resolved_path with
      | some p => some p
      | none =>
      match normalise_file_path fs (with_extension resolved_path "d.ts") with
      | some p => some p
      | none =>
      match normalise_file_path fs (with_extension resolved_path "ts") with
      | some p => some p
      | none =>
        if is_dir fs resolved_path then
          match normalise_file_path fs (resolved_path ++ ["index.d.ts"]) with
          | some p => some p
          | none =>
          match normalise_file_path fs (resolved_path ++ ["index.ts"]) with
          | some p => some p
          | none => some resolved_path
        else some resolved_path
  else none

/-- `get_imported_module_paths` (module_set.rs:90-110), iterating over the
module symbols in order. -/
def importPathsOfSymbols (fs : VFS) (path : FPath) : List TypeScriptSymbol → List FPath
  | [] => []
  | s :: rest =>
      (match s with
       | .ModuleImport src _ => (resolve_relative_import fs path src).toList
       | .ModuleExport (some src) _ => (resolve_relative_import fs path src).toList
       | _ => []) ++ importPathsOfSymbols fs path rest

/-- `get_imported_module_paths` (module_set.rs:90). -/
def get_imported_module_paths (fs : VFS) (m : Module) (path : FPath) : List FPath :=
  importPathsOfSymbols fs path m.symbols

/-- The message of the `Io` error raised when a dequeued path cannot be
read (module_set.rs:52-56); it embeds the offending path. -/
def ioErrorMsg (p : FPath) : String :=
  "Failed to read file at '" ++ pathStr p ++ "': No such file or directory"

/-- `std::fs::read_to_string`: the OS resolves `.`/`..` components while
looking the path up, so a non-canonical spelling of an existing file reads
successfully. -/
def read_to_string (fs : VFS) (p : FPath) : Option TsFile :=
  (fs.files.find? (fun kv => kv.1 == normalize p)).map (·.2)

/-- The loop state of `ModuleSet::from_entrypoints` (module_set.rs:34-36),
with `visited` kept as a list in insertion order (insertion order is the
processing order) and a ghost field `enq` recording every path ever pushed
onto the queue, in push order. -/
structure BuildState where
  queue : List FPath
  visited : List FPath
  modules : List (FPath × Module)
  enq : List FPath

/-- The `while let` loop of `ModuleSet::from_entrypoints`
(module_set.rs:42-66), with explicit fuel; `none` means the fuel ran out.
`VecDeque::push_back`/`pop_front` become appending at the tail / taking the
head. -/
def buildLoop (fs : VFS) : Nat → BuildState → Option (Except ExtractionError BuildState)
  | 0, _ => none
  | Nat.succ fuel, st =>
    match st.queue with
    | [] => some (.ok st)
    | p :: rest =>
      if p ∈ st.visited then buildLoop fs fuel { st with queue := rest }
      else
        match read_to_string fs p with
        | none => some (.error (.Io (ioErrorMsg p)))
        | some tf =>
          match parse_typescript_file tf with
          | .error e => some (.error e)
          | .ok m =>
            let deps := get_imported_module_paths fs m p
            buildLoop fs fuel
              { queue := rest ++ deps,
                visited := st.visited ++ [p],
                modules := st.modules ++ [(p, m)],
                enq := st.enq ++ deps }

/-- The initial loop state: the queue and the enqueue trace are seeded with
the entry point paths (module_set.rs:38-40). -/
def initState (entries : List FPath) : BuildState :=
  { queue := entries, visited := [], modules := [], enq := entries }

/-- The paths a successfully processed file contributes to the queue. -/
def depsOf (fs : VFS) (p : FPath) : List FPath :=
  match read_to_string fs p with
  | some (.parsed l) => get_imported_module_paths fs (mkModule l) p
  | _ => []

/-- Fuel accounting: a successfully processed path costs one dequeue plus
one dequeue per dependency it enqueues. -/
def weight (fs : VFS) (p : FPath) : Nat := 1 + (depsOf fs p).length

/-- The paths that can ever be processed successfully: the entry points and
the canonical file keys. -/
def candSet (fs : VFS) (entries : List FPath) : List FPath :=
  (entries ++ fileKeys fs).dedup

/-- Upper bound on the number of loop iterations still to run. -/
def potential (fs : VFS) (entries : List FPath) (st : BuildState) : Nat :=
  st.queue.length +
    (((candSet fs entries).filter (fun p => decide (p ∉ st.visited))).map (weight fs)).sum

/-- `ModuleSet::from_entrypoints` (module_set.rs:30-69), run with enough
fuel for the traversal to finish (termination is proved separately). -/
def from_entrypoints (fs : VFS) (entries : List FPath) :
    Option (Except ExtractionError BuildState) :=
  buildLoop fs (potential fs entries (initState entries) + 1) (initState entries)

/-- The key set of the resulting `ModuleSet`. -/
def moduleSetKeys : Except ExtractionError BuildState → List FPath
  | .ok st => st.modules.map (·.1)
  | .error _ => []

/-- First-occurrence deduplication (the order in which distinct values
first appear in a list). -/
def dedupFirst (l : List FPath) : List FPath :=
  l.foldl (fun acc x => if x ∈ acc then acc else acc ++ [x]) []

/-!
## Helper lemmas about the extraction pass
-/

/-- The name carried by a symbol (used to state order preservation at the
entry level, independently of the JSDoc attached from the previous
sibling). -/
def symName : TypeScriptSymbol → String
  | .Symbol s _ => s.name
  | .Namespace n _ _ _ => n
  | .ModuleImport src _ => src
  | .ModuleExport _ _ => ""

mutual

theorem stmtImports_cat (s : Stmt) : ∀ x ∈ stmtImports s, category x = 0 := by
  cases s with
  | ns w n body => simpa [stmtImports] using stmtsImports_cat body
  | importS c src =>
      intro x hx
      simp only [stmtImports, importTargetsOfClause, List.mem_map] at hx
      obtain ⟨ch, _, rfl⟩ := hx
      cases ch <;> rfl
  | _ => intro x hx <;> simp [stmtImports] at hx
termination_by structural s

theorem stmtsImports_cat (l : List Stmt) : ∀ x ∈ stmtsImports l, category x = 0 := by
  cases l with
  | nil => intro x hx; simp [stmtsImports] at hx
  | cons s rest =>
      intro x hx
      simp only [stmtsImports, List.mem_append] at hx
      rcases hx with h | h
      · exact stmtImports_cat s x h
      · exact stmtsImports_cat rest x h
termination_by structural l

end

theorem extract_symbols_aux_cat (l : List Stmt) :
    ∀ prev, ∀ x ∈ extract_symbols_aux prev l, category x = 1 := by
  induction l with
  | nil => intro prev x hx; simp [extract_symbols_aux] at hx
  | cons s rest ih =>
      intro prev x hx
      simp only [extract_symbols_aux, List.mem_append] at hx
      rcases hx with h | h
      · unfold topDeclSymbol at h
        cases hd : declInfo s with
        | none => simp [hd] at h
        | some v =>
            obtain ⟨n, w, e⟩ := v
            simp only [hd, Option.toList_some, List.mem_singleton] at h
            subst h; rfl
      · exact ih (some s) x h

theorem extract_namespaces_aux_cat (l : List Stmt) :
    ∀ prev, ∀ x ∈ extract_namespaces_aux prev l, category x = 2 := by
  induction l with
  | nil => intro prev x hx; simp [extract_namespaces_aux] at hx
  | cons s rest ih =>
      intro prev x hx
      simp only [extract_namespaces_aux, List.mem_append] at hx
      rcases hx with h | h
      · cases s <;> simp [nsSymbolFor] at h
        case ns w n body => subst h; rfl
      · exact ih (some s) x h

theorem emitAcc_cat (st : ExportAcc) : ∀ x ∈ (emitAcc st).1, category x = 3 := by
  unfold emitAcc
  split <;> intro x hx
  · simp at hx
  · simp only [List.mem_singleton] at hx; subst hx; rfl

theorem exportStep_cat (st : ExportAcc) (m : ExportMatch) :
    ∀ x ∈ (exportStep ([], st) m).1, category x = 3 := by
  cases m with
  | barrel src => intro x hx; simp [exportStep] at hx; subst hx; rfl
  | nsExport n src => intro x hx; simp [exportStep] at hx; subst hx; rfl
  | commonjs n =>
      intro x hx
      by_cases hsrc : (none : Option String) ≠ st.current_source
      · simp only [exportStep, if_pos hsrc, List.nil_append, List.mem_append] at hx
        rcases hx with h | h
        · exact emitAcc_cat _ x h
        · exact emitAcc_cat _ x h
      · simp only [exportStep, if_neg hsrc, List.nil_append, List.mem_append] at hx
        exact emitAcc_cat _ x hx
  | specifier n a src isLast =>
      intro x hx
      by_cases hsrc : src ≠ st.current_source
      · cases isLast with
        | true =>
            simp only [exportStep, if_pos hsrc, List.nil_append, List.mem_append,
              if_true] at hx
            rcases hx with h | h
            · exact emitAcc_cat _ x h
            · exact emitAcc_cat _ x h
        | false =>
            simp only [exportStep, if_pos hsrc, List.nil_append, Bool.false_eq_true,
              if_false] at hx
            exact emitAcc_cat _ x hx
      · cases isLast with
        | true =>
            simp only [exportStep, if_neg hsrc, List.nil_append, List.mem_append,
              if_true] at hx
            exact emitAcc_cat _ x hx
        | false =>
            simp only [exportStep, if_neg hsrc, List.nil_append, Bool.false_eq_true,
              if_false] at hx
            simp at hx

theorem foldl_exportStep_cat (ms : List ExportMatch) :
    ∀ acc : List TypeScriptSymbol × ExportAcc, (∀ x ∈ acc.1, category x = 3) →
      ∀ x ∈ (ms.foldl exportStep acc).1, category x = 3 := by
  induction ms with
  | nil => intro acc hacc x hx; exact hacc x hx
  | cons m rest ih =>
      intro acc hacc x hx
      refine ih (exportStep acc m) ?_ x hx
      intro y hy
      have hlocal : exportStep acc m =
          (acc.1 ++ (exportStep ([], acc.2) m).1, (exportStep ([], acc.2) m).2) := by
        obtain ⟨out, st⟩ := acc
        cases m <;> simp [exportStep] <;> split <;> simp <;> split <;> simp
      rw [hlocal] at hy
      simp only [List.mem_append] at hy
      rcases hy with h | h
      · exact hacc y h
      · exact exportStep_cat acc.2 _ y h

theorem extract_exports_cat (l : List Stmt) : ∀ x ∈ extract_exports l, category x = 3 := by
  intro x hx
  exact foldl_exportStep_cat _ _ (by intro y hy; simp at hy) x hx

theorem stmtsImports_append (l1 l2 : List Stmt) :
    stmtsImports (l1 ++ l2) = stmtsImports l1 ++ stmtsImports l2 := by
  induction l1 with
  | nil => simp [stmtsImports]
  | cons s rest ih => simp [stmtsImports, ih]

theorem stmtsExportMatches_append (l1 l2 : List Stmt) :
    stmtsExportMatches (l1 ++ l2) = stmtsExportMatches l1 ++ stmtsExportMatches l2 := by
  induction l1 with
  | nil => simp [stmtsExportMatches]
  | cons s rest ih => simp [stmtsExportMatches, ih]

theorem exportStep_out_local (out : List TypeScriptSymbol) (st : ExportAcc) (m : ExportMatch) :
    exportStep (out, st) m = (out ++ (exportStep ([], st) m).1, (exportStep ([], st) m).2) := by
  cases m <;> simp [exportStep] <;> split <;> simp <;> split <;> simp

theorem foldl_exportStep_out_local (ms : List ExportMatch) :
    ∀ (out : List TypeScriptSymbol) (st : ExportAcc),
      ms.foldl exportStep (out, st) =
        (out ++ (ms.foldl exportStep ([], st)).1, (ms.foldl exportStep ([], st)).2) := by
  induction ms with
  | nil => intro out st; simp
  | cons m rest ih =>
      intro out st
      have hpair : exportStep ([], st) m =
          ((exportStep ([], st) m).1, (exportStep ([], st) m).2) := rfl
      simp only [List.foldl_cons]
      rw [exportStep_out_local out st m, ih, hpair,
        ih (exportStep ([], st) m).1 (exportStep ([], st) m).2]
      simp

theorem specifierMatches_resets (src : Option String) :
    ∀ specs : List (String × Option String), specs ≠ [] →
      ∀ acc, ((specifierMatches src specs).foldl exportStep acc).2 = emptyAcc := by
  intro specs
  induction specs with
  | nil => intro h; exact absurd rfl h
  | cons na rest ih =>
      intro _ acc
      cases rest with
      | nil =>
          obtain ⟨out, st⟩ := acc
          show (exportStep (out, st) (.specifier na.1 na.2 src true)).2 = emptyAcc
          by_cases hsrc : src ≠ st.current_source <;>
            simp [exportStep, hsrc, emitAcc, emptyAcc]
      | cons nb rest2 =>
          simp only [specifierMatches, List.foldl_cons]
          exact ih (by simp) _

mutual

theorem stmtExportMatches_resets (s : Stmt) :
    ∀ acc : List TypeScriptSymbol × ExportAcc, acc.2 = emptyAcc →
      ((stmtExportMatches s).foldl exportStep acc).2 = emptyAcc := by
  cases s with
  | exportClause specs src =>
      intro acc hacc
      cases specs with
      | nil => simpa [stmtExportMatches, specifierMatches] using hacc
      | cons na rest =>
          exact specifierMatches_resets src (na :: rest) (by simp) acc
  | exportEquals n =>
      intro acc hacc
      obtain ⟨out, st⟩ := acc
      simp only at hacc
      subst hacc
      simp [stmtExportMatches, exportStep, emitAcc, emptyAcc]
  | exportNsFrom n src =>
      intro acc hacc
      obtain ⟨out, st⟩ := acc
      simpa [stmtExportMatches, exportStep] using hacc
  | exportBarrel src =>
      intro acc hacc
      obtain ⟨out, st⟩ := acc
      simpa [stmtExportMatches, exportStep] using hacc
  | ns w n body =>
      intro acc hacc
      exact stmtsExportMatches_resets body acc hacc
  | comment t => intro acc hacc; simpa [stmtExportMatches] using hacc
  | decl d => intro acc hacc; simpa [stmtExportMatches] using hacc
  | ambient d => intro acc hacc; simpa [stmtExportMatches] using hacc
  | exportD a b d => intro acc hacc; simpa [stmtExportMatches] using hacc
  | importS c src => intro acc hacc; simpa [stmtExportMatches] using hacc
  | exportDefault n => intro acc hacc; simpa [stmtExportMatches] using hacc
termination_by structural s

theorem stmtsExportMatches_resets (l : List Stmt) :
    ∀ acc : List TypeScriptSymbol × ExportAcc, acc.2 = emptyAcc →
      ((stmtsExportMatches l).foldl exportStep acc).2 = emptyAcc := by
  cases l with
  | nil => intro acc h; simpa [stmtsExportMatches] using h
  | cons s rest =>
      intro acc h
      simp only [stmtsExportMatches, List.foldl_append]
      exact stmtsExportMatches_resets rest _ (stmtExportMatches_resets s acc h)
termination_by structural l

end

theorem extract_exports_append (l1 l2 : List Stmt) :
    extract_exports (l1 ++ l2) = extract_exports l1 ++ extract_exports l2 := by
  unfold extract_exports
  rw [stmtsExportMatches_append, List.foldl_append]
  have hpair : (stmtsExportMatches l1).foldl exportStep ([], emptyAcc) =
      (((stmtsExportMatches l1).foldl exportStep ([], emptyAcc)).1,
       ((stmtsExportMatches l1).foldl exportStep ([], emptyAcc)).2) := rfl
  rw [hpair, stmtsExportMatches_resets l1 ([], emptyAcc) rfl,
    foldl_exportStep_out_local]

/-- The statement preceding the continuation after scanning `l` starting
from previous sibling `prev`. -/
def prevAfter (prev : Option Stmt) : List Stmt → Option Stmt
  | [] => prev
  | s :: rest => prevAfter (some s) rest

theorem extract_symbols_aux_append (l1 l2 : List Stmt) :
    ∀ prev, extract_symbols_aux prev (l1 ++ l2) =
      extract_symbols_aux prev l1 ++ extract_symbols_aux (prevAfter prev l1) l2 := by
  induction l1 with
  | nil => intro prev; simp [extract_symbols_aux, prevAfter]
  | cons s rest ih =>
      intro prev
      simp [extract_symbols_aux, prevAfter, ih (some s)]

theorem topDeclSymbol_name_irrel (p q : Option Stmt) (s : Stmt) :
    ((topDeclSymbol p s).toList).map symName = ((topDeclSymbol q s).toList).map symName := by
  unfold topDeclSymbol
  cases hd : declInfo s with
  | none => simp
  | some v => obtain ⟨n, w, e⟩ := v; simp [symName]

theorem extract_symbols_aux_name_irrel (l : List Stmt) (p q : Option Stmt) :
    (extract_symbols_aux p l).map symName = (extract_symbols_aux q l).map symName := by
  cases l with
  | nil => rfl
  | cons s rest =>
      simp only [extract_symbols_aux, List.map_append]
      rw [topDeclSymbol_name_irrel p q]

theorem extract_symbols_map_name_append (l1 l2 : List Stmt) :
    (extract_symbols (l1 ++ l2)).map symName =
      (extract_symbols l1).map symName ++ (extract_symbols l2).map symName := by
  unfold extract_symbols
  rw [extract_symbols_aux_append, List.map_append,
    extract_symbols_aux_name_irrel l2 (prevAfter none l1) none]

theorem nsSymbolFor_name_irrel (p q : Option Stmt) (s : Stmt) :
    (nsSymbolFor p s).map symName = (nsSymbolFor q s).map symName := by
  cases s <;> simp [nsSymbolFor, symName]

theorem extract_namespaces_aux_append (l1 l2 : List Stmt) :
    ∀ prev, extract_namespaces_aux prev (l1 ++ l2) =
      extract_namespaces_aux prev l1 ++ extract_namespaces_aux (prevAfter prev l1) l2 := by
  induction l1 with
  | nil => intro prev; simp [extract_namespaces_aux, prevAfter]
  | cons s rest ih =>
      intro prev
      simp [extract_namespaces_aux, prevAfter, ih (some s)]

theorem extract_namespaces_aux_name_irrel (l : List Stmt) (p q : Option Stmt) :
    (extract_namespaces_aux p l).map symName = (extract_namespaces_aux q l).map symName := by
  cases l with
  | nil => rfl
  | cons s rest =>
      simp only [extract_namespaces_aux, List.map_append]
      rw [nsSymbolFor_name_irrel p q]

theorem extract_namespaces_map_name_append (l1 l2 : List Stmt) :
    (extract_namespaces (l1 ++ l2)).map symName =
      (extract_namespaces l1).map symName ++ (extract_namespaces l2).map symName := by
  unfold extract_namespaces
  rw [extract_namespaces_aux_append, List.map_append,
    extract_namespaces_aux_name_irrel l2 (prevAfter none l1) none]

theorem filter_cat_self (L : List TypeScriptSymbol) (c : Nat)
    (h : ∀ x ∈ L, category x = c) : L.filter (fun s => category s == c) = L := by
  apply List.filter_eq_self.mpr
  intro x hx
  simp [h x hx]

theorem filter_cat_nil (L : List TypeScriptSymbol) (c cdash : Nat)
    (h : ∀ x ∈ L, category x = c) (hne : c ≠ cdash) :
    L.filter (fun s => category s == cdash) = [] := by
  apply List.filter_eq_nil_iff.mpr
  intro x hx
  simp [h x hx, hne]

theorem pairwise_le_of_const (L : List Nat) (c : Nat) (h : ∀ x ∈ L, x = c) :
    L.Pairwise (· ≤ ·) := by
  induction L with
  | nil => exact List.Pairwise.nil
  | cons a rest ih =>
      constructor
      · intro b hb
        rw [h a (by simp), h b (by simp [hb])]
      · exact ih (fun x hx => h x (by simp [hx]))

theorem mem_map_cat_eq {L : List TypeScriptSymbol} {c : Nat}
    (h : ∀ x ∈ L, category x = c) : ∀ y ∈ L.map category, y = c := by
  intro y hy
  obtain ⟨x, hx, rfl⟩ := List.mem_map.mp hy
  exact h x hx

theorem pairwise_cats_four (A B C D : List TypeScriptSymbol)
    (hA : ∀ x ∈ A, category x = 0) (hB : ∀ x ∈ B, category x = 1)
    (hC : ∀ x ∈ C, category x = 2) (hD : ∀ x ∈ D, category x = 3) :
    ((A ++ B ++ C ++ D).map category).Pairwise (· ≤ ·) := by
  have mA := mem_map_cat_eq hA
  have mB := mem_map_cat_eq hB
  have mC := mem_map_cat_eq hC
  have mD := mem_map_cat_eq hD
  simp only [List.map_append]
  refine List.pairwise_append.mpr ⟨List.pairwise_append.mpr
      ⟨List.pairwise_append.mpr
        ⟨pairwise_le_of_const _ 0 mA, pairwise_le_of_const _ 1 mB, ?_⟩,
       pairwise_le_of_const _ 2 mC, ?_⟩,
    pairwise_le_of_const _ 3 mD, ?_⟩
  · intro x hx y hy
    rw [mA x hx, mB y hy]
    omega
  · intro x hx y hy
    rw [mC y hy]
    rcases List.mem_append.mp hx with h | h
    · rw [mA x h]; omega
    · rw [mB x h]; omega
  · intro x hx y hy
    rw [mD y hy]
    rcases List.mem_append.mp hx with h | h
    · rcases List.mem_append.mp h with h2 | h2
      · rw [mA x h2]; omega
      · rw [mB x h2]; omega
    · rw [mC x h]; omega

theorem extract_imports_cat (l : List Stmt) :
    ∀ x ∈ extract_imports l, category x = 0 := stmtsImports_cat l

theorem extract_symbols_cat (l : List Stmt) :
    ∀ x ∈ extract_symbols l, category x = 1 := extract_symbols_aux_cat l none

theorem extract_namespaces_cat (l : List Stmt) :
    ∀ x ∈ extract_namespaces l, category x = 2 := extract_namespaces_aux_cat l none

theorem gms_filter_cat (l : List Stmt) (c : Nat) :
    (get_module_symbols l).filter (fun s => category s == c) =
      (extract_imports l).filter (fun s => category s == c)
        ++ (extract_symbols l).filter (fun s => category s == c)
        ++ (extract_namespaces l).filter (fun s => category s == c)
        ++ (extract_exports l).filter (fun s => category s == c) := by
  unfold get_module_symbols
  simp [List.filter_append]

/-- C1: for every parsed file, the `symbols` vector is grouped by category
in the fixed order imports → declarations → namespaces → exports: the
category sequence is monotone, and filtering `symbols` by each category
recovers exactly the corresponding extraction pass, in order.  Within each
category relative source order is preserved: each pass distributes over
concatenation of statement lists (at the entry-name level for the two
JSDoc-sensitive passes).  The sequence is not global source-positional
order: in a file whose barrel export precedes its import statement, the
ModuleImport entry still comes first in `symbols`. -/
theorem c1_symbols_category_grouping :
    (∀ l : List Stmt, (mkModule l).symbols = get_module_symbols l) ∧
    (∀ l : List Stmt, ((get_module_symbols l).map category).Pairwise (· ≤ ·)) ∧
    (∀ l : List Stmt,
      (get_module_symbols l).filter (fun s => category s == 0) = extract_imports l ∧
      (get_module_symbols l).filter (fun s => category s == 1) = extract_symbols l ∧
      (get_module_symbols l).filter (fun s => category s == 2) = extract_namespaces l ∧
      (get_module_symbols l).filter (fun s => category s == 3) = extract_exports l) ∧
    (∀ l1 l2 : List Stmt,
      extract_imports (l1 ++ l2) = extract_imports l1 ++ extract_imports l2 ∧
      extract_exports (l1 ++ l2) = extract_exports l1 ++ extract_exports l2 ∧
      (extract_symbols (l1 ++ l2)).map symName =
        (extract_symbols l1).map symName ++ (extract_symbols l2).map symName ∧
      (extract_namespaces (l1 ++ l2)).map symName =
        (extract_namespaces l1).map symName ++ (extract_namespaces l2).map symName) ∧
    get_module_symbols [.exportBarrel "./x", .importS [.ident "a"] "./y"] =
      [.ModuleImport "./y" (.Default "a"), .ModuleExport (some "./x") .Barrel] := by
  refine ⟨fun l => rfl, ?_, ?_, ?_, by rfl⟩
  · intro l
    exact pairwise_cats_four _ _ _ _ (extract_imports_cat l) (extract_symbols_cat l)
      (extract_namespaces_cat l) (extract_exports_cat l)
  · intro l
    refine ⟨?_, ?_, ?_, ?_⟩ <;> rw [gms_filter_cat]
    · rw [filter_cat_self _ _ (extract_imports_cat l),
        filter_cat_nil _ _ _ (extract_symbols_cat l) (by omega),
        filter_cat_nil _ _ _ (extract_namespaces_cat l) (by omega),
        filter_cat_nil _ _ _ (extract_exports_cat l) (by omega)]
      simp
    · rw [filter_cat_self _ _ (extract_symbols_cat l),
        filter_cat_nil _ _ _ (extract_imports_cat l) (by omega),
        filter_cat_nil _ _ _ (extract_namespaces_cat l) (by omega),
        filter_cat_nil _ _ _ (extract_exports_cat l) (by omega)]
      simp
    · rw [filter_cat_self _ _ (extract_namespaces_cat l),
        filter_cat_nil _ _ _ (extract_imports_cat l) (by omega),
        filter_cat_nil _ _ _ (extract_symbols_cat l) (by omega),
        filter_cat_nil _ _ _ (extract_exports_cat l) (by omega)]
      simp
    · rw [filter_cat_self _ _ (extract_exports_cat l),
        filter_cat_nil _ _ _ (extract_imports_cat l) (by omega),
        filter_cat_nil _ _ _ (extract_symbols_cat l) (by omega),
        filter_cat_nil _ _ _ (extract_namespaces_cat l) (by omega)]
      simp
  · intro l1 l2
    exact ⟨stmtsImports_append l1 l2, extract_exports_append l1 l2,
      extract_symbols_map_name_append l1 l2, extract_namespaces_map_name_append l1 l2⟩

/-- The file of the C2 counterexample: `namespace Foo { export { a }; }` —
a namespace whose body holds a named export statement. -/
def c2File : List Stmt := [.ns .plain "Foo" [.exportClause [("a", none)] none]]

/-- C2 counterexample: in `namespace Foo { export { a }; }` the named
export inside the namespace body appears **both** inside the namespace
`content` and in the enclosing module's top-level `symbols`
(`extract_exports` has no namespace-ancestor filter), so the claim that an
export statement nested in a namespace never appears at top level fails. -/
theorem c2_counterexample :
    get_module_symbols c2File =
      [.Namespace "Foo" none [.ModuleExport none (.Named ["a"] [])] false,
       .ModuleExport none (.Named ["a"] [])] ∧
    TypeScriptSymbol.ModuleExport none (.Named ["a"] []) ∈ get_module_symbols c2File := by
  refine ⟨rfl, ?_⟩
  have h : get_module_symbols c2File =
      [.Namespace "Foo" none [.ModuleExport none (.Named ["a"] [])] false,
       .ModuleExport none (.Named ["a"] [])] := rfl
  rw [h]
  exact List.mem_cons_of_mem _ (List.mem_cons_self _ _)

/-- Replace every namespace body by the empty body (keeping the namespace
node itself). -/
def stripStmt : Stmt → Stmt
  | .ns w n _ => .ns w n []
  | s => s

/-- Empty all namespace bodies of a file. -/
def stripNsBodies (l : List Stmt) : List Stmt := l.map stripStmt

theorem get_jsdoc_strip (p : Option Stmt) : get_jsdoc (p.map stripStmt) = get_jsdoc p := by
  cases p with
  | none => rfl
  | some s => cases s <;> rfl

theorem declInfo_strip (s : Stmt) : declInfo (stripStmt s) = declInfo s := by
  cases s <;> rfl

theorem extract_symbols_aux_strip (l : List Stmt) :
    ∀ p : Option Stmt,
      extract_symbols_aux (p.map stripStmt) (stripNsBodies l) = extract_symbols_aux p l := by
  induction l with
  | nil => intro p; rfl
  | cons s rest ih =>
      intro p
      simp only [stripNsBodies, List.map_cons, extract_symbols_aux]
      congr 1
      · simp only [topDeclSymbol, declInfo_strip, get_jsdoc_strip]
      · simpa [stripNsBodies] using ih (some s)

theorem nsSymbolFor_strip_name (p : Option Stmt) (s : Stmt) :
    (nsSymbolFor (p.map stripStmt) (stripStmt s)).map symName =
      (nsSymbolFor p s).map symName := by
  cases s <;> simp [stripStmt, nsSymbolFor, symName]

theorem extract_namespaces_aux_strip_name (l : List Stmt) :
    ∀ p : Option Stmt,
      (extract_namespaces_aux (p.map stripStmt) (stripNsBodies l)).map symName =
        (extract_namespaces_aux p l).map symName := by
  induction l with
  | nil => intro p; rfl
  | cons s rest ih =>
      intro p
      simp only [stripNsBodies, List.map_cons, extract_namespaces_aux, List.map_append]
      rw [nsSymbolFor_strip_name p s]
      congr 1
      simpa [stripNsBodies] using ih (some s)

/-- C2 (amended): a **declaration** lexically nested inside a namespace
body never appears in the enclosing module's top-level `symbols` — emptying
every namespace body leaves the declaration pass unchanged — and likewise a
nested namespace never appears at top level (the namespace pass is
unchanged at the entry-name level); the nested statements appear inside the
enclosing namespace's `content`, which is exactly the recursive
four-category extraction of the namespace body.  (Import and export
statements nested in a namespace body, by contrast, additionally leak into
the top-level `symbols`: see the counterexample.) -/
theorem c2_amended_nested_declarations :
    (∀ l : List Stmt, extract_symbols (stripNsBodies l) = extract_symbols l) ∧
    (∀ l : List Stmt, (extract_namespaces (stripNsBodies l)).map symName =
        (extract_namespaces l).map symName) ∧
    (∀ (prev : Option Stmt) (w : NsWrap) (n : String) (b : List Stmt),
        nsSymbolFor prev (.ns w n b) =
          [.Namespace n (nsJsdoc w prev) (get_module_symbols b) (nsIsExported w)]) := by
  refine ⟨?_, ?_, fun prev w n b => rfl⟩
  · intro l
    exact extract_symbols_aux_strip l none
  · intro l
    exact extract_namespaces_aux_strip_name l none

/-- C3: during export extraction, the accumulated named-export state is
flushed into a `ModuleExport` with a `Named` target exactly at the three
triggers: (4) the just-seen specifier's source differs from the accumulated
source, (5) the specifier is the last one in its statement, (6) the form is
a CommonJS export; (2) a specifier firing no trigger emits nothing, (3) any
emission during a specifier step means a trigger fired, (1) flushing with
an empty name buffer emits nothing and leaves the state unchanged, and
(7)/(8) namespace and barrel matches bypass the accumulator entirely. -/
theorem c3_export_flush_triggers :
    (∀ st : ExportAcc, st.current_names = [] → emitAcc st = ([], st)) ∧
    (∀ (st : ExportAcc) (n : String) (a : Option String) (src : Option String),
        src = st.current_source →
        (exportStep ([], st) (.specifier n a src false)).1 = []) ∧
    (∀ (st : ExportAcc) (n : String) (a : Option String) (src : Option String)
        (isLast : Bool),
        (exportStep ([], st) (.specifier n a src isLast)).1 ≠ [] →
        src ≠ st.current_source ∨ isLast = true) ∧
    (∀ (st : ExportAcc) (n : String) (a : Option String) (src : Option String),
        src ≠ st.current_source → st.current_names ≠ [] →
        (exportStep ([], st) (.specifier n a src false)).1 =
          [.ModuleExport st.current_source (.Named st.current_names st.current_aliases)]) ∧
    (∀ (st : ExportAcc) (n : String) (a : Option String) (src : Option String),
        src = st.current_source →
        (exportStep ([], st) (.specifier n a src true)).1 =
          [.ModuleExport src (.Named (st.current_names ++ [n])
            (match a with
             | some al => insertAlias st.current_aliases n al
             | none => st.current_aliases))]) ∧
    (∀ (st : ExportAcc) (n : String), st.current_source = none →
        (exportStep ([], st) (.commonjs n)).1 =
          [.ModuleExport none (.Named (st.current_names ++ [n]) st.current_aliases)]) ∧
    (∀ (st : ExportAcc) (n : String) (src : String),
        exportStep ([], st) (.nsExport n src) =
          ([.ModuleExport (some src) (.Namespace n)], st)) ∧
    (∀ (st : ExportAcc) (src : String),
        exportStep ([], st) (.barrel src) =
          ([.ModuleExport (some src) .Barrel], st)) := by
  refine ⟨?_, ?_, ?_, ?_, ?_, ?_, fun st n src => rfl, fun st src => rfl⟩
  · intro st h
    simp [emitAcc, h]
  · intro st n a src h
    have hne : ¬src ≠ st.current_source := fun hc => hc h
    simp [exportStep, hne]
  · intro st n a src isLast hout
    by_cases hsrc : src ≠ st.current_source
    · exact Or.inl hsrc
    · cases isLast with
      | true => exact Or.inr rfl
      | false =>
          exfalso
          apply hout
          simp [exportStep, hsrc]
  · intro st n a src hsrc hnames
    simp [exportStep, hsrc, emitAcc, hnames]
  · intro st n a src hsrc
    have hne : ¬src ≠ st.current_source := fun hc => hc hsrc
    simp [exportStep, hne, emitAcc, hsrc]
  · intro st n h
    have hne : ¬(none : Option String) ≠ st.current_source := fun hc => hc h.symm
    simp [exportStep, hne, emitAcc, h]

/-- Witness for `c3_export_flush_triggers` at concrete states: the
no-trigger step emits nothing; the source-change, last-specifier and
CommonJS triggers each flush the accumulated buffer; the empty flush is a
no-op. -/
theorem c3_export_flush_triggers_witness :
    emitAcc ⟨[], [], some "./m"⟩ = ([], ⟨[], [], some "./m"⟩) ∧
    (exportStep ([], ⟨["x"], [], some "./m"⟩)
        (.specifier "y" none (some "./m") false)).1 = [] ∧
    (exportStep ([], ⟨["x"], [], some "./m"⟩)
        (.specifier "y" none (some "./n") false)).1 =
      [.ModuleExport (some "./m") (.Named ["x"] [])] ∧
    (exportStep ([], ⟨["x"], [], some "./m"⟩)
        (.specifier "y" none (some "./m") true)).1 =
      [.ModuleExport (some "./m") (.Named ["x", "y"] [])] ∧
    (exportStep ([], ⟨[], [], none⟩) (.commonjs "f")).1 =
      [.ModuleExport none (.Named ["f"] [])] := by
  refine ⟨c3_export_flush_triggers.1 _ rfl,
    c3_export_flush_triggers.2.1 _ "y" none _ rfl,
    c3_export_flush_triggers.2.2.2.1 _ "y" none _ (by decide) (by decide),
    ?_, c3_export_flush_triggers.2.2.2.2.2.1 _ "f" rfl⟩
  exact c3_export_flush_triggers.2.2.2.2.1 _ "y" none _ rfl

/-- C10: for every successfully parsed file, `Module.jsdoc` is `Some j`
exactly when the first child node of the file is a comment with text `j`
that starts with `/**` and contains one of the module-level tags (`@file`,
`@fileoverview`, `@module`); in particular a `//` line comment, a plain
`/* ... */` block comment, or a qualifying JSDoc comment that is not the
first node never yields a module-level JSDoc. -/
theorem c10_module_jsdoc_iff (l : List Stmt) (j : String) :
    (parse_typescript_file (.parsed l)).map Module.jsdoc = .ok (some j) ↔
      (l.head? = some (.comment j) ∧ strStartsWith j "/**" = true ∧
        is_module_jsdoc j = true) := by
  cases l with
  | nil =>
      simp [parse_typescript_file, mkModule, get_jsdoc, Except.map]
  | cons s rest =>
      cases s with
      | comment t =>
          by_cases h1 : strStartsWith t "/**" = true
          · by_cases h2 : is_module_jsdoc t = true
            · simp only [parse_typescript_file, Except.map, mkModule, List.head?_cons,
                get_jsdoc, h1, if_true, Option.filter, h2, Except.ok.injEq,
                Option.some.injEq, Stmt.comment.injEq]
              constructor
              · rintro ⟨rfl⟩
                exact ⟨rfl, h1, h2⟩
              · rintro ⟨rfl, _, _⟩
                rfl
            · simp only [parse_typescript_file, Except.map, mkModule, List.head?_cons,
                get_jsdoc, h1, if_true, Option.filter, h2, Except.ok.injEq,
                Option.some.injEq, Stmt.comment.injEq, Bool.false_eq_true, if_false]
              constructor
              · intro h
                exact absurd h (by simp)
              · rintro ⟨rfl, _, hc⟩
                exact absurd hc h2
          · simp only [parse_typescript_file, Except.map, mkModule, List.head?_cons,
              get_jsdoc, h1, Bool.false_eq_true, if_false, Option.filter,
              Except.ok.injEq, Option.some.injEq, Stmt.comment.injEq]
            constructor
            · intro h
              exact absurd h (by simp)
            · rintro ⟨rfl, hc, _⟩
              exact absurd hc h1
      | decl d => simp [parse_typescript_file, mkModule, get_jsdoc, Except.map]
      | ambient d => simp [parse_typescript_file, mkModule, get_jsdoc, Except.map]
      | exportD a b d => simp [parse_typescript_file, mkModule, get_jsdoc, Except.map]
      | ns w n body => simp [parse_typescript_file, mkModule, get_jsdoc, Except.map]
      | importS c src => simp [parse_typescript_file, mkModule, get_jsdoc, Except.map]
      | exportClause sp src => simp [parse_typescript_file, mkModule, get_jsdoc, Except.map]
      | exportEquals n => simp [parse_typescript_file, mkModule, get_jsdoc, Except.map]
      | exportNsFrom n src => simp [parse_typescript_file, mkModule, get_jsdoc, Except.map]
      | exportBarrel src => simp [parse_typescript_file, mkModule, get_jsdoc, Except.map]
      | exportDefault n => simp [parse_typescript_file, mkModule, get_jsdoc, Except.map]

/-- The `source_code` carried by a declaration symbol, when present. -/
def symbolCode : Option TypeScriptSymbol → Option String
  | some (.Symbol s _) => some s.source_code
  | _ => none

theorem declare_space_data (x : String) :
    ("declare " ++ x).data = "declare".data ++ (' ' :: x.data) := by
  rw [String.data_append]
  rfl

theorem code_infix_of_widened (prev : Option Stmt) (s : Stmt) (n w : String) (e : Bool)
    (hd : declInfo s = some (n, w, e)) (a : List Char) (ha : a <:+: w.data) :
    ∃ c, symbolCode (topDeclSymbol prev s) = some c ∧ a <:+: c.data := by
  cases hj : get_jsdoc prev with
  | none =>
      refine ⟨w, ?_, ha⟩
      simp [topDeclSymbol, hd, hj, symbolCode]
  | some j =>
      by_cases hm : is_module_jsdoc j = true
      · refine ⟨w, ?_, ha⟩
        simp [topDeclSymbol, hd, hj, hm, symbolCode]
      · refine ⟨j ++ "\n" ++ w, ?_, ?_⟩
        · simp [topDeclSymbol, hd, hj, hm, symbolCode]
        · obtain ⟨u, v, huv⟩ := ha
          refine ⟨(j ++ "\n").data ++ u, v, ?_⟩
          calc ((j ++ "\n").data ++ u) ++ a ++ v
              = (j ++ "\n").data ++ (u ++ a ++ v) := by simp [List.append_assoc]
            _ = (j ++ "\n").data ++ w.data := by rw [huv]
            _ = ((j ++ "\n") ++ w).data := (String.data_append _ _).symm

/-- C9: for every extracted declaration `Symbol`, `source_code` contains the
`declare` keyword when the declaration is ambient (bare or export-wrapped),
contains the `export` keyword when the declaration is directly exported,
includes an immediately preceding JSDoc comment when that comment is not
module-level, and omits it when the comment is a module-level doc comment
(one containing `@file`, `@fileoverview`, or `@module`). -/
theorem c9_symbol_source_code :
    (∀ (prev : Option Stmt) (d : DeclNode),
      ∃ c, symbolCode (topDeclSymbol prev (.ambient d)) = some c ∧
        "declare".data <:+: c.data) ∧
    (∀ (prev : Option Stmt) (isDef : Bool) (d : DeclNode),
      ∃ c, symbolCode (topDeclSymbol prev (.exportD isDef true d)) = some c ∧
        "declare".data <:+: c.data) ∧
    (∀ (prev : Option Stmt) (isDef isAmb : Bool) (d : DeclNode),
      ∃ c, symbolCode (topDeclSymbol prev (.exportD isDef isAmb d)) = some c ∧
        "export".data <:+: c.data) ∧
    (∀ (t : String) (s : Stmt) (n w : String) (e : Bool),
      strStartsWith t "/**" = true → is_module_jsdoc t = false →
      declInfo s = some (n, w, e) →
      symbolCode (topDeclSymbol (some (.comment t)) s) = some (t ++ "\n" ++ w) ∧
        t.data <:+: (t ++ "\n" ++ w).data) ∧
    (∀ (t : String) (s : Stmt) (n w : String) (e : Bool),
      strStartsWith t "/**" = true → is_module_jsdoc t = true →
      declInfo s = some (n, w, e) →
      symbolCode (topDeclSymbol (some (.comment t)) s) = some w) := by
  refine ⟨?_, ?_, ?_, ?_, ?_⟩
  · intro prev d
    refine code_infix_of_widened prev (.ambient d) d.name ("declare " ++ d.src) false rfl
      "declare".data ⟨[], ' ' :: d.src.data, ?_⟩
    rw [declare_space_data]
    simp
  · intro prev isDef d
    refine code_infix_of_widened prev (.exportD isDef true d) d.name
      ("export " ++ (if isDef then "default " else "") ++ "declare " ++ d.src) true rfl
      "declare".data
      ⟨("export " ++ (if isDef then "default " else "")).data, ' ' :: d.src.data, ?_⟩
    have h1 : ("export " ++ (if isDef then "default " else "")) ++ ("declare " ++ d.src)
        = "export " ++ (if isDef then "default " else "") ++ "declare " ++ d.src := by
      simp [String.append_assoc]
    rw [← h1]
    simp only [String.data_append, List.append_assoc]
    rfl
  · intro prev isDef isAmb d
    refine code_infix_of_widened prev (.exportD isDef isAmb d) d.name
      ("export " ++ (if isDef then "default " else "") ++
        (if isAmb then "declare " else "") ++ d.src) true rfl
      "export".data
      ⟨[], ' ' :: ((if isDef then "default " else "") ++
        (if isAmb then "declare " else "") ++ d.src).data, ?_⟩
    have h1 : ("export " : String) ++ ((if isDef then "default " else "") ++
        (if isAmb then "declare " else "") ++ d.src)
        = "export " ++ (if isDef then "default " else "") ++
          (if isAmb then "declare " else "") ++ d.src := by
      simp [String.append_assoc]
    rw [← h1, show ("export " ++ ((if isDef then "default " else "") ++
        (if isAmb then "declare " else "") ++ d.src)).data
      = "export".data ++ (' ' :: ((if isDef then "default " else "") ++
        (if isAmb then "declare " else "") ++ d.src).data) from by
        rw [String.data_append]; rfl]
    simp
  · intro t s n w e h1 h2 hd
    constructor
    · simp [topDeclSymbol, hd, get_jsdoc, h1, h2, symbolCode]
    · exact ⟨[], ("\n" ++ w).data, by simp [String.data_append]⟩
  · intro t s n w e h1 h2 hd
    simp [topDeclSymbol, hd, get_jsdoc, h1, h2, symbolCode]

/-- Witness for `c9_symbol_source_code` at concrete declarations: a
`declare const`, an `export declare const`, an `export function`, a
declaration preceded by an ordinary JSDoc comment, and one preceded by a
module-level `@module` comment. -/
theorem c9_symbol_source_code_witness :
    (∃ c, symbolCode (topDeclSymbol none (.ambient ⟨"V", "const V: string;"⟩)) = some c ∧
        "declare".data <:+: c.data) ∧
    (∃ c, symbolCode (topDeclSymbol none
        (.exportD false true ⟨"V", "const V: string;"⟩)) = some c ∧
        "declare".data <:+: c.data) ∧
    (∃ c, symbolCode (topDeclSymbol none
        (.exportD false false ⟨"g", "function g(): void;"⟩)) = some c ∧
        "export".data <:+: c.data) ∧
    (symbolCode (topDeclSymbol (some (.comment "/** Doc */"))
        (.ambient ⟨"V", "const V: string;"⟩)) =
      some ("/** Doc */" ++ "\n" ++ ("declare " ++ "const V: string;")) ∧
      "/** Doc */".data <:+:
        ("/** Doc */" ++ "\n" ++ ("declare " ++ "const V: string;")).data) ∧
    symbolCode (topDeclSymbol (some (.comment "/** @module m */"))
        (.ambient ⟨"V", "const V: string;"⟩)) = some ("declare " ++ "const V: string;") :=
  ⟨c9_symbol_source_code.1 none ⟨"V", "const V: string;"⟩,
   c9_symbol_source_code.2.1 none false ⟨"V", "const V: string;"⟩,
   c9_symbol_source_code.2.2.1 none false false ⟨"g", "function g(): void;"⟩,
   c9_symbol_source_code.2.2.2.1 "/** Doc */" _ _ _ _ (by rfl) (by rfl) rfl,
   c9_symbol_source_code.2.2.2.2 "/** @module m */" _ _ _ _ (by rfl) (by rfl) rfl⟩

/-- Appending an extension to the final component (what the C4 claim, as
stated, says happens to the joined path). -/
def appendExtension (p : FPath) (ext : String) : FPath :=
  match p.getLast? with
  | none => p
  | some f => p.dropLast ++ [f ++ "." ++ ext]

/-- Filesystem of the C4 counterexample: the importer `tmp/mod.d.ts` and
the declaration file `tmp/foo.d.ts`; no `foo.js`, `foo.js.d.ts` or
`foo.js.ts` exist. -/
def c4Fs : VFS :=
  { files := [(["tmp", "mod.d.ts"], .parsed []), (["tmp", "foo.d.ts"], .parsed [])],
    dirs := [[], ["tmp"]] }

/-- C4 counterexample: for the specifier `./foo.js` the resolver returns
`tmp/foo.d.ts` (because `PathBuf::with_extension` REPLACES the `.js`
extension), even though none of the claim's candidates — the joined path,
the joined path with `.d.ts` appended, the joined path with `.ts` appended
— canonicalizes to an existing file, the joined path is not a directory,
and the result is neither a claimed candidate's canonicalization nor the
raw joined path.  So the claim's candidate list is wrong for specifiers
that already carry an extension. -/
theorem c4_counterexample :
    resolve_relative_import c4Fs ["tmp", "mod.d.ts"] "./foo.js" =
      some ["tmp", "foo.d.ts"] ∧
    (∀ c ∈ [["tmp", ".", "foo.js"], appendExtension ["tmp", ".", "foo.js"] "d.ts",
            appendExtension ["tmp", ".", "foo.js"] "ts"],
        normalise_file_path c4Fs c = none) ∧
    is_dir c4Fs ["tmp", ".", "foo.js"] = false ∧
    (["tmp", "foo.d.ts"] : FPath) ≠ ["tmp", ".", "foo.js"] := by
  refine ⟨rfl, ?_, rfl, by decide⟩
  decide

/-- The candidate list of the amended C4 claim, tried in order: the joined
path as given; the joined path with its final extension replaced by `d.ts`
(appended only when the final component has no extension); likewise `ts`;
then, if the joined path is an existing directory, its `index.d.ts` and
`index.ts`. -/
def c4Candidates (fs : VFS) (j : FPath) : List FPath :=
  [j, with_extension j "d.ts", with_extension j "ts"]
    ++ (if is_dir fs j then [j ++ ["index.d.ts"], j ++ ["index.ts"]] else [])

/-- Resolution as the amended claim words it: relative specifiers only
(`./` or `../`); the first candidate that canonicalizes to an existing
regular file wins; when none matches, the raw joined path is returned. -/
def resolveAmendedC4 (fs : VFS) (module_path : FPath) (import_path : String) :
    Option FPath :=
  if strStartsWith import_path "./" || strStartsWith import_path "../" then
    match parentDir module_path with
    | none => none
    | some dir =>
        some ((((c4Candidates fs (dir ++ splitPath import_path)).filterMap
          (normalise_file_path fs)).headD (dir ++ splitPath import_path)))
  else none

/-- First-match-wins characterization of `resolve_relative_import` against
the candidate-list formulation `resolveAmendedC4`. -/
theorem resolveAmended_eq (fs : VFS) (module_path : FPath) (import_path : String) :
    resolve_relative_import fs module_path import_path =
      resolveAmendedC4 fs module_path import_path := by
  unfold resolve_relative_import resolveAmendedC4
  split
  · cases hpd : parentDir module_path with
    | none => rfl
    | some dir =>
        simp only []
        cases h1 : normalise_file_path fs (dir ++ splitPath import_path) with
        | some p => simp [c4Candidates, h1]
        | none =>
          cases h2 : normalise_file_path fs
              (with_extension (dir ++ splitPath import_path) "d.ts") with
          | some p => simp [c4Candidates, h1, h2]
          | none =>
            cases h3 : normalise_file_path fs
                (with_extension (dir ++ splitPath import_path) "ts") with
            | some p => simp [c4Candidates, h1, h2, h3]
            | none =>
              by_cases h4 : is_dir fs (dir ++ splitPath import_path) = true
              · cases h5 : normalise_file_path fs
                    ((dir ++ splitPath import_path) ++ ["index.d.ts"]) with
                | some p =>
                    simp only [List.append_assoc] at h5
                    simp [c4Candidates, h1, h2, h3, h4, h5]
                | none =>
                  simp only [List.append_assoc] at h5
                  cases h6 : normalise_file_path fs
                      ((dir ++ splitPath import_path) ++ ["index.ts"]) with
                  | some p =>
                      simp only [List.append_assoc] at h6
                      simp [c4Candidates, h1, h2, h3, h4, h5, h6]
                  | none =>
                      simp only [List.append_assoc] at h6
                      simp [c4Candidates, h1, h2, h3, h4, h5, h6]
              · simp [c4Candidates, h1, h2, h3, h4]
  · rfl

/-- C4 (amended): path resolution applies only to `./`/`../` specifiers
(bare specifiers resolve to nothing), and for a relative specifier the
resolver is exactly first-match-wins over the amended candidate list, with
the raw joined path as fallback: the extension candidates use
`with_extension`, which replaces an existing final extension instead of
appending to it. -/
theorem c4_amended_resolution (fs : VFS) (module_path : FPath) (import_path : String) :
    resolve_relative_import fs module_path import_path =
      resolveAmendedC4 fs module_path import_path :=
  resolveAmended_eq fs module_path import_path

/-!
## Helper lemmas about path normalization and the virtual filesystem
-/

/-- A component that survives normalization. -/
def goodComp (c : String) : Bool := !(c == "." || c == ".." || c == "")

/-- A path in canonical (normalized) form. -/
def goodPath (p : FPath) : Bool := p.all goodComp

theorem foldl_normComp_good (p : FPath) :
    ∀ acc, goodPath acc = true → goodPath (p.foldl normComp acc) = true := by
  induction p with
  | nil => intro acc h; exact h
  | cons c rest ih =>
      intro acc h
      simp only [List.foldl_cons]
      apply ih
      unfold normComp
      split
      · exact h
      · split
        · simp only [goodPath, List.all_eq_true] at h ⊢
          intro x hx
          exact h x ((List.dropLast_sublist acc).subset hx)
        · rename_i h1 h2
          simp only [goodPath, List.all_eq_true] at h ⊢
          intro x hx
          rcases List.mem_append.mp hx with hx | hx
          · exact h x hx
          · simp only [List.mem_singleton] at hx
            subst hx
            push_neg at h1
            simp [goodComp, h1.1, h1.2, h2]

theorem goodPath_normalize (p : FPath) : goodPath (normalize p) = true :=
  foldl_normComp_good p [] rfl

theorem foldl_normComp_fixed (p : FPath) :
    goodPath p = true → ∀ acc, p.foldl normComp acc = acc ++ p := by
  induction p with
  | nil => intro _ acc; simp
  | cons c rest ih =>
      intro h acc
      simp only [goodPath, List.all_cons, Bool.and_eq_true] at h
      have hc : normComp acc c = acc ++ [c] := by
        unfold normComp
        have h1 : ¬(c = "." ∨ c = "") := by
          rintro (rfl | rfl) <;> simp [goodComp] at h
        have h2 : ¬c = ".." := by
          rintro rfl
          simp [goodComp] at h
        simp [h1, h2]
      simp only [List.foldl_cons, hc]
      rw [ih h.2 (acc ++ [c])]
      simp

theorem normalize_fixed (p : FPath) (h : goodPath p = true) : normalize p = p := by
  have := foldl_normComp_fixed p h []
  simpa [normalize] using this

theorem normalize_idem (p : FPath) : normalize (normalize p) = normalize p :=
  normalize_fixed _ (goodPath_normalize p)

theorem read_eq_none_iff (fs : VFS) (p : FPath) :
    read_to_string fs p = none ↔ normalize p ∉ fileKeys fs := by
  unfold read_to_string fileKeys
  constructor
  · intro h hm
    obtain ⟨kv, hkv, hk⟩ := List.mem_map.mp hm
    cases hf : List.find? (fun kv => kv.1 == normalize p) fs.files with
    | some x => rw [hf] at h; simp at h
    | none =>
        rw [List.find?_eq_none] at hf
        exact hf kv hkv (by simp [hk])
  · intro h
    cases hf : List.find? (fun kv => kv.1 == normalize p) fs.files with
    | none => simp [hf]
    | some x =>
        exfalso
        have hx := List.find?_some hf
        have hmem := List.mem_of_find?_eq_some hf
        simp only [beq_iff_eq] at hx
        exact h (List.mem_map.mpr ⟨x, hmem, hx⟩)

theorem normalise_eq_some (fs : VFS) (p c : FPath)
    (h : normalise_file_path fs p = some c) :
    c = normalize p ∧ c ∈ fileKeys fs := by
  unfold normalise_file_path at h
  cases hc : canonicalize fs p with
  | none => rw [hc] at h; cases h
  | some c2 =>
      rw [hc] at h
      cases hf : is_file fs c2 with
      | false => simp [hf] at h
      | true =>
          simp only [hf, if_true] at h
          cases h
          have hc2 : (if normalize p ∈ fileKeys fs ∨ normalize p ∈ fs.dirs
              then some (normalize p) else none) = some c := hc
          split at hc2
          · cases hc2
            exact ⟨rfl, by simpa [is_file] using hf⟩
          · cases hc2

theorem normalise_eq_none (fs : VFS) (p : FPath)
    (h : normalise_file_path fs p = none) : normalize p ∉ fileKeys fs := by
  intro hmem
  unfold normalise_file_path at h
  have hc : canonicalize fs p = some (normalize p) := by
    unfold canonicalize
    rw [if_pos (Or.inl hmem)]
  rw [hc] at h
  have hf : is_file fs (normalize p) = true := by simpa [is_file] using hmem
  simp [hf] at h

/-- Well-formedness of the virtual filesystem: file keys are canonical. -/
def VFS.WF (fs : VFS) : Prop := ∀ p ∈ fileKeys fs, goodPath p = true

/-- Any path the resolver returns is either a canonical existing file key,
or (the raw fallback) a path that cannot be read. -/
theorem resolve_some_cases (fs : VFS) (hwf : VFS.WF fs) (module_path : FPath)
    (import_path : String) (q : FPath)
    (h : resolve_relative_import fs module_path import_path = some q) :
    (q ∈ fileKeys fs ∧ normalize q = q) ∨ read_to_string fs q = none := by
  rw [resolveAmended_eq] at h
  unfold resolveAmendedC4 at h
  split at h
  · cases hpd : parentDir module_path with
    | none => rw [hpd] at h; cases h
    | some dir =>
        rw [hpd] at h
        simp only [Option.some.injEq] at h
        cases hfm : (c4Candidates fs (dir ++ splitPath import_path)).filterMap
            (normalise_file_path fs) with
        | nil =>
            rw [hfm] at h
            simp only [List.headD_nil] at h
            subst h
            have hj : normalise_file_path fs (dir ++ splitPath import_path) = none := by
              have hall := List.filterMap_eq_nil.mp hfm
              exact hall _ (by simp [c4Candidates])
            exact Or.inr ((read_eq_none_iff fs _).mpr (normalise_eq_none fs _ hj))
        | cons a as =>
            rw [hfm] at h
            simp only [List.headD_cons] at h
            subst h
            have hmem : a ∈ (c4Candidates fs (dir ++ splitPath import_path)).filterMap
                (normalise_file_path fs) := by
              rw [hfm]
              exact List.mem_cons_self a as
            obtain ⟨c, _, hceq⟩ := List.mem_filterMap.mp hmem
            obtain ⟨ha, hamem⟩ := normalise_eq_some fs c a hceq
            exact Or.inl ⟨hamem, normalize_fixed a (hwf a hamem)⟩
  · cases h

/-- Every dependency path pushed by a processed module is a canonical
existing file key or unreadable. -/
theorem importPaths_cases (fs : VFS) (hwf : VFS.WF fs) (path : FPath)
    (syms : List TypeScriptSymbol) :
    ∀ q ∈ importPathsOfSymbols fs path syms,
      (q ∈ fileKeys fs ∧ normalize q = q) ∨ read_to_string fs q = none := by
  induction syms with
  | nil => intro q hq; simp [importPathsOfSymbols] at hq
  | cons s rest ih =>
      intro q hq
      simp only [importPathsOfSymbols, List.mem_append] at hq
      rcases hq with hq | hq
      · cases s with
        | ModuleImport src tgt =>
            simp only [Option.mem_toList, Option.mem_def] at hq
            exact resolve_some_cases fs hwf path src q hq
        | ModuleExport osrc tgt =>
            cases osrc with
            | none => simp at hq
            | some src =>
                simp only [Option.mem_toList, Option.mem_def] at hq
                exact resolve_some_cases fs hwf path src q hq
        | Symbol s e => simp at hq
        | Namespace n j c e => simp at hq
      · exact ih q hq

theorem dedupFirst_snoc (l : List FPath) (x : FPath) :
    dedupFirst (l ++ [x]) =
      if x ∈ dedupFirst l then dedupFirst l else dedupFirst l ++ [x] := by
  simp [dedupFirst, List.foldl_append]

theorem mem_foldl_dedup (l : List FPath) :
    ∀ (acc : List FPath) (x : FPath),
      x ∈ l.foldl (fun acc x => if x ∈ acc then acc else acc ++ [x]) acc ↔
        x ∈ acc ∨ x ∈ l := by
  induction l with
  | nil => intro acc x; simp
  | cons c rest ih =>
      intro acc x
      simp only [List.foldl_cons]
      rw [ih]
      by_cases hc : c ∈ acc
      · simp only [if_pos hc]
        constructor
        · rintro (h | h)
          · exact Or.inl h
          · exact Or.inr (List.mem_cons_of_mem _ h)
        · rintro (h | h)
          · exact Or.inl h
          · rcases List.mem_cons.mp h with rfl | h
            · exact Or.inl hc
            · exact Or.inr h
      · simp only [if_neg hc, List.mem_append, List.mem_singleton]
        constructor
        · rintro ((h | rfl) | h)
          · exact Or.inl h
          · exact Or.inr (List.mem_cons_self _ _)
          · exact Or.inr (List.mem_cons_of_mem _ h)
        · rintro (h | h)
          · exact Or.inl (Or.inl h)
          · rcases List.mem_cons.mp h with rfl | h
            · exact Or.inl (Or.inr rfl)
            · exact Or.inr h

theorem mem_dedupFirst (l : List FPath) (x : FPath) :
    x ∈ dedupFirst l ↔ x ∈ l := by
  unfold dedupFirst
  rw [mem_foldl_dedup]
  simp

theorem nodup_foldl_dedup (l : List FPath) :
    ∀ acc : List FPath, acc.Nodup →
      (l.foldl (fun acc x => if x ∈ acc then acc else acc ++ [x]) acc).Nodup := by
  induction l with
  | nil => intro acc h; exact h
  | cons c rest ih =>
      intro acc h
      simp only [List.foldl_cons]
      apply ih
      by_cases hc : c ∈ acc
      · simpa [hc] using h
      · simp only [if_neg hc]
        exact List.Nodup.append h (List.nodup_singleton c)
          (by simpa [List.disjoint_singleton] using hc)

theorem dedupFirst_nodup (l : List FPath) : (dedupFirst l).Nodup :=
  nodup_foldl_dedup l [] List.nodup_nil

theorem sum_filter_remove (w : FPath → Nat) (v : List FPath) (p : FPath) :
    ∀ c : List FPath, c.Nodup → p ∈ c → p ∉ v →
      (((c.filter (fun q => decide (q ∉ v ++ [p]))).map w).sum + w p =
        ((c.filter (fun q => decide (q ∉ v))).map w).sum) := by
  intro c
  induction c with
  | nil => intro _ hp; simp at hp
  | cons a rest ih =>
      intro hnd hp hv
      have hnd2 := List.nodup_cons.mp hnd
      rcases List.mem_cons.mp hp with rfl | hp2
      · -- head is p: excluded on the left, included on the right
        have hL : (decide (p ∉ v ++ [p])) = false := by simp
        have hR : (decide (p ∉ v)) = true := by simpa using hv
        simp only [List.filter_cons, hL, hR, if_false, if_true, List.map_cons,
          List.sum_cons]
        have hfilters : rest.filter (fun q => decide (q ∉ v ++ [p])) =
            rest.filter (fun q => decide (q ∉ v)) := by
          apply List.filter_congr
          intro q hq
          have hqa : q ≠ p := fun hEq => hnd2.1 (hEq ▸ hq)
          simp [List.mem_append, hqa]
        rw [hfilters]
        simp only [Bool.false_eq_true, if_false, List.map_cons, List.sum_cons]
        omega
      · -- head is not p
        have hap : a ≠ p := fun hEq => hnd2.1 (hEq ▸ hp2)
        have hsame : (decide (a ∉ v ++ [p])) = (decide (a ∉ v)) := by
          simp [List.mem_append, hap]
        by_cases hav : a ∈ v
        · have : (decide (a ∉ v)) = false := by simpa using hav
          simp only [List.filter_cons, hsame, this, if_false]
          exact ih hnd2.2 hp2 hv
        · have : (decide (a ∉ v)) = true := by simpa using hav
          simp only [List.filter_cons, hsame, this, if_true, List.map_cons,
            List.sum_cons]
          have := ih hnd2.2 hp2 hv
          omega

/-- The loop invariant of `ModuleSet::from_entrypoints`: every queued path
is a candidate (entry point or canonical file key) or unreadable; every
visited path is an entry point or a canonical file key; the module map is
keyed by the visited list; and the visited list is the first-occurrence
deduplication of the dequeued prefix of the enqueue trace (FIFO). -/
structure BuildInv (fs : VFS) (entries : List FPath) (st : BuildState) : Prop where
  queue_ok : ∀ p ∈ st.queue, p ∈ candSet fs entries ∨ read_to_string fs p = none
  visited_ok : ∀ p ∈ st.visited, p ∈ entries ∨ (p ∈ fileKeys fs ∧ normalize p = p)
  keys_eq : st.modules.map (·.1) = st.visited
  fifo : ∃ D, st.enq = D ++ st.queue ∧ st.visited = dedupFirst D

theorem buildLoop_master (fs : VFS) (entries : List FPath) (hwf : VFS.WF fs) :
    ∀ (fuel : Nat) (st : BuildState), BuildInv fs entries st →
      potential fs entries st < fuel →
      ∃ r, buildLoop fs fuel st = some r ∧
        (∀ st2, r = .ok st2 → st2.queue = [] ∧ BuildInv fs entries st2) ∧
        (∀ msg, r = .error (.Io msg) →
          ∃ p, msg = ioErrorMsg p ∧ read_to_string fs p = none) := by
  intro fuel
  induction fuel with
  | zero => intro st _ hpot; omega
  | succ fuel ih =>
      intro st hinv hpot
      cases hq : st.queue with
      | nil =>
          refine ⟨.ok st, by simp [buildLoop, hq], ?_, ?_⟩
          · intro st2 h2
            cases h2
            exact ⟨hq, hinv⟩
          · intro msg h2
            cases h2
      | cons p rest =>
          have hpmem : p ∈ st.queue := by rw [hq]; exact List.mem_cons_self _ _
          by_cases hv : p ∈ st.visited
          · have hstep : buildLoop fs (fuel + 1) st =
                buildLoop fs fuel { st with queue := rest } := by
              simp [buildLoop, hq, hv]
            have hinv2 : BuildInv fs entries { st with queue := rest } := by
              refine ⟨?_, hinv.visited_ok, hinv.keys_eq, ?_⟩
              · intro q hqmem
                exact hinv.queue_ok q (by rw [hq]; exact List.mem_cons_of_mem _ hqmem)
              · obtain ⟨D, hD1, hD2⟩ := hinv.fifo
                refine ⟨D ++ [p], ?_, ?_⟩
                · rw [hD1, hq]
                  simp
                · rw [dedupFirst_snoc, if_pos (by rw [← hD2]; exact hv)]
                  exact hD2
            have hpot2 : potential fs entries { st with queue := rest } < fuel := by
              have hEq : potential fs entries st =
                  potential fs entries { st with queue := rest } + 1 := by
                simp [potential, hq]
                omega
              omega
            obtain ⟨r, hr, hok, herr⟩ := ih { st with queue := rest } hinv2 hpot2
            exact ⟨r, by rw [hstep]; exact hr, hok, herr⟩
          · cases hr : read_to_string fs p with
            | none =>
                refine ⟨.error (.Io (ioErrorMsg p)), by simp [buildLoop, hq, hv, hr],
                  ?_, ?_⟩
                · intro st2 h2
                  cases h2
                · intro msg h2
                  simp only [Except.error.injEq, ExtractionError.Io.injEq] at h2
                  exact ⟨p, h2.symm, hr⟩
            | some tf =>
                cases tf with
                | malformed =>
                    refine ⟨.error (.Malformed "Failed to parse source file"),
                      by simp [buildLoop, hq, hv, hr, parse_typescript_file], ?_, ?_⟩
                    · intro st2 h2
                      cases h2
                    · intro msg h2
                      simp at h2
                | parsed lst =>
                    have hstep : buildLoop fs (fuel + 1) st = buildLoop fs fuel
                        { queue := rest ++ get_imported_module_paths fs (mkModule lst) p,
                          visited := st.visited ++ [p],
                          modules := st.modules ++ [(p, mkModule lst)],
                          enq := st.enq ++ get_imported_module_paths fs (mkModule lst) p } := by
                      simp [buildLoop, hq, hv, hr, parse_typescript_file]
                    have hpc : p ∈ candSet fs entries := by
                      rcases hinv.queue_ok p hpmem with h | h
                      · exact h
                      · rw [h] at hr
                        cases hr
                    have hinv2 : BuildInv fs entries
                        { queue := rest ++ get_imported_module_paths fs (mkModule lst) p,
                          visited := st.visited ++ [p],
                          modules := st.modules ++ [(p, mkModule lst)],
                          enq := st.enq ++ get_imported_module_paths fs (mkModule lst) p } := by
                      refine ⟨?_, ?_, ?_, ?_⟩
                      · intro q hqm
                        rcases List.mem_append.mp hqm with h | h
                        · exact hinv.queue_ok q (by rw [hq]; exact List.mem_cons_of_mem _ h)
                        · rcases importPaths_cases fs hwf p (mkModule lst).symbols q h with h2 | h2
                          · exact Or.inl (List.mem_dedup.mpr
                              (List.mem_append.mpr (Or.inr h2.1)))
                          · exact Or.inr h2
                      · intro q hqm
                        rcases List.mem_append.mp hqm with h | h
                        · exact hinv.visited_ok q h
                        · simp only [List.mem_singleton] at h
                          subst h
                          rcases List.mem_append.mp (List.mem_dedup.mp hpc) with h | h
                          · exact Or.inl h
                          · exact Or.inr ⟨h, normalize_fixed q (hwf q h)⟩
                      · simp [hinv.keys_eq]
                      · obtain ⟨D, hD1, hD2⟩ := hinv.fifo
                        refine ⟨D ++ [p], ?_, ?_⟩
                        · show st.enq ++ _ = (D ++ [p]) ++ (rest ++ _)
                          rw [hD1, hq]
                          simp
                        · show st.visited ++ [p] = dedupFirst (D ++ [p])
                          rw [dedupFirst_snoc, if_neg (fun hc => hv (by rw [hD2]; exact hc)),
                            hD2]
                    have hwp : weight fs p =
                        1 + (get_imported_module_paths fs (mkModule lst) p).length := by
                      simp [weight, depsOf, hr]
                    have hsum := sum_filter_remove (weight fs) st.visited p
                        (candSet fs entries) (List.nodup_dedup _) hpc hv
                    have hA : potential fs entries st = rest.length + 1 +
                        (((candSet fs entries).filter
                          (fun q => decide (q ∉ st.visited))).map (weight fs)).sum := by
                      simp [potential, hq]
                    have hB : potential fs entries
                        { queue := rest ++ get_imported_module_paths fs (mkModule lst) p,
                          visited := st.visited ++ [p],
                          modules := st.modules ++ [(p, mkModule lst)],
                          enq := st.enq ++ get_imported_module_paths fs (mkModule lst) p } =
                        rest.length + (get_imported_module_paths fs (mkModule lst) p).length +
                        (((candSet fs entries).filter
                          (fun q => decide (q ∉ st.visited ++ [p]))).map (weight fs)).sum := by
                      simp [potential]
                    have hpot2 : potential fs entries
                        { queue := rest ++ get_imported_module_paths fs (mkModule lst) p,
                          visited := st.visited ++ [p],
                          modules := st.modules ++ [(p, mkModule lst)],
                          enq := st.enq ++ get_imported_module_paths fs (mkModule lst) p } <
                        fuel := by
                      omega
                    obtain ⟨r, hr2, hok, herr⟩ := ih _ hinv2 hpot2
                    exact ⟨r, by rw [hstep]; exact hr2, hok, herr⟩

/-- The key set of a finished traversal (an `ok` outcome); empty on error
(no partial `ModuleSet` exists) or fuel exhaustion. -/
def okKeys : Option (Except ExtractionError BuildState) → List FPath
  | some (.ok st) => st.modules.map (·.1)
  | _ => []

theorem initState_inv (fs : VFS) (entries : List FPath) :
    BuildInv fs entries (initState entries) := by
  refine ⟨?_, ?_, rfl, ⟨[], by simp [initState], rfl⟩⟩
  · intro p hp
    exact Or.inl (List.mem_dedup.mpr (List.mem_append.mpr (Or.inl hp)))
  · intro p hp
    simp [initState] at hp

/-- C5: for every filesystem — in particular one whose reachable import
graph contains a cycle — and every entry point list, the traversal
terminates (run with the precomputed fuel it produces a result instead of
running out); on success the queue is exhausted, the list of processed
paths (`visited`, in processing order) has no duplicates, so every
distinct queued path is read and parsed exactly once; every path ever
enqueued ends up processed; the `ModuleSet` is keyed exactly by the
processed paths; and the processing order is the first-occurrence order of
the FIFO enqueue trace. -/
theorem c5_traversal_terminates (fs : VFS) (entries : List FPath) (hwf : VFS.WF fs) :
    ∃ r, from_entrypoints fs entries = some r ∧
      ∀ st, r = .ok st →
        st.queue = [] ∧ st.visited.Nodup ∧ st.visited = dedupFirst st.enq ∧
        (∀ p ∈ st.enq, p ∈ st.visited) ∧ st.modules.map (·.1) = st.visited := by
  obtain ⟨r, hr, hok, herr⟩ := buildLoop_master fs entries hwf
    (potential fs entries (initState entries) + 1) (initState entries)
    (initState_inv fs entries) (by omega)
  refine ⟨r, hr, ?_⟩
  intro st hst
  obtain ⟨hq, hinv⟩ := hok st hst
  obtain ⟨D, hD1, hD2⟩ := hinv.fifo
  rw [hq] at hD1
  simp only [List.append_nil] at hD1
  refine ⟨hq, ?_, ?_, ?_, hinv.keys_eq⟩
  · rw [hD2]
    exact dedupFirst_nodup D
  · rw [hD1, hD2]
  · intro p hp
    rw [hD1] at hp
    rw [hD2]
    exact (mem_dedupFirst D p).mpr hp

/-- The cyclic two-file scenario: `a.d.ts` and `b.d.ts` import each other. -/
def cycleA : FPath := ["lib", "a.d.ts"]

/-- The second file of the cyclic scenario. -/
def cycleB : FPath := ["lib", "b.d.ts"]

/-- Virtual filesystem for the cyclic-import scenario. -/
def cycleFs : VFS :=
  { files := [(cycleA, .parsed [.importS [.namedImports [("B", none)]] "./b",
                .exportD false false ⟨"A", "interface A extends B \x7b\x7d"⟩]),
              (cycleB, .parsed [.importS [.namedImports [("A", none)]] "./a",
                .exportD false false ⟨"B", "interface B extends A \x7b\x7d"⟩])],
    dirs := [[], ["lib"]] }

/-- Witness for `c5_traversal_terminates` on the cyclic import graph
`a.d.ts ↔ b.d.ts`. -/
theorem c5_traversal_terminates_witness :
    ∃ r, from_entrypoints cycleFs [cycleA] = some r ∧
      ∀ st, r = .ok st →
        st.queue = [] ∧ st.visited.Nodup ∧ st.visited = dedupFirst st.enq ∧
        (∀ p ∈ st.enq, p ∈ st.visited) ∧ st.modules.map (·.1) = st.visited :=
  c5_traversal_terminates cycleFs [cycleA] (by unfold VFS.WF; decide)

/-- The non-canonical entry point of the C6 counterexample. -/
def ncEntry : FPath := ["lib", ".", "x.d.ts"]

/-- Filesystem of the C6 counterexample: one file `lib/x.d.ts`, listed as
an entry point under the non-canonical spelling `lib/./x.d.ts`. -/
def ncFs : VFS :=
  { files := [(["lib", "x.d.ts"], .parsed [])], dirs := [[], ["lib"]] }

/-- C6 counterexample: an entry point given under a non-canonical path is
read successfully (the OS resolves the `.` component) but its verbatim,
non-canonical spelling becomes the `ModuleSet` key, so not every key is a
canonicalized path. -/
theorem c6_counterexample :
    okKeys (from_entrypoints ncFs [ncEntry]) = [ncEntry] ∧
    normalize ncEntry ≠ ncEntry := by
  exact ⟨rfl, by decide⟩

/-- C6 (amended): keys arising from import resolution are canonicalized,
but entry-point keys are used verbatim; when every entry point is given in
canonical form, every key of the resulting `ModuleSet` is canonical, the
keys are pairwise distinct, and two keys with the same canonical form are
equal — the same physical file is never represented by two different
keys. -/
theorem c6_amended_canonical_keys (fs : VFS) (entries : List FPath)
    (hwf : VFS.WF fs) (hentries : ∀ e ∈ entries, normalize e = e) :
    (∀ k ∈ okKeys (from_entrypoints fs entries), normalize k = k) ∧
    (okKeys (from_entrypoints fs entries)).Nodup ∧
    (∀ k1 ∈ okKeys (from_entrypoints fs entries),
      ∀ k2 ∈ okKeys (from_entrypoints fs entries),
        normalize k1 = normalize k2 → k1 = k2) := by
  obtain ⟨r, hr, hok, _⟩ := buildLoop_master fs entries hwf
    (potential fs entries (initState entries) + 1) (initState entries)
    (initState_inv fs entries) (by omega)
  have hfe : from_entrypoints fs entries = some r := hr
  cases r with
  | error e =>
      rw [hfe]
      refine ⟨?_, ?_, ?_⟩ <;> simp [okKeys]
  | ok st =>
      obtain ⟨hq, hinv⟩ := hok st rfl
      have hkeys : okKeys (from_entrypoints fs entries) = st.modules.map (·.1) := by
        rw [hfe]
        rfl
      rw [hkeys, hinv.keys_eq]
      have hcanon : ∀ k ∈ st.visited, normalize k = k := by
        intro k hk
        rcases hinv.visited_ok k hk with h | h
        · exact hentries k h
        · exact h.2
      refine ⟨hcanon, ?_, ?_⟩
      · obtain ⟨D, _, hD2⟩ := hinv.fifo
        rw [hD2]
        exact dedupFirst_nodup D
      · intro k1 h1 k2 h2 hnorm
        calc k1 = normalize k1 := (hcanon k1 h1).symm
          _ = normalize k2 := hnorm
          _ = k2 := hcanon k2 h2

/-- Witness for `c6_amended_canonical_keys`: with the canonical entry point
`lib/x.d.ts` every `ModuleSet` key is canonical and distinct. -/
theorem c6_amended_canonical_keys_witness :
    (∀ k ∈ okKeys (from_entrypoints ncFs [["lib", "x.d.ts"]]), normalize k = k) ∧
    (okKeys (from_entrypoints ncFs [["lib", "x.d.ts"]])).Nodup ∧
    (∀ k1 ∈ okKeys (from_entrypoints ncFs [["lib", "x.d.ts"]]),
      ∀ k2 ∈ okKeys (from_entrypoints ncFs [["lib", "x.d.ts"]]),
        normalize k1 = normalize k2 → k1 = k2) :=
  c6_amended_canonical_keys ncFs [["lib", "x.d.ts"]] (by unfold VFS.WF; decide)
    (by decide)

/-- C7: when no resolution candidate matches an existing file, the resolver
still returns the raw joined (non-canonicalized) path instead of dropping
the edge; that path cannot be read, and when it is later dequeued
(unvisited) the whole graph build immediately fails with an `Io` error
whose message embeds the missing path. -/
theorem c7_unresolved_fallback (fs : VFS) (module_path : FPath)
    (import_path : String) (dir : FPath)
    (hrel : (strStartsWith import_path "./" || strStartsWith import_path "../") = true)
    (hpd : parentDir module_path = some dir)
    (hcand : ∀ c ∈ c4Candidates fs (dir ++ splitPath import_path),
        normalise_file_path fs c = none) :
    resolve_relative_import fs module_path import_path =
      some (dir ++ splitPath import_path) ∧
    read_to_string fs (dir ++ splitPath import_path) = none ∧
    (∀ (fuel : Nat) (q v : List FPath) (mods : List (FPath × Module))
        (enq : List FPath), (dir ++ splitPath import_path) ∉ v →
      buildLoop fs (fuel + 1)
          ⟨(dir ++ splitPath import_path) :: q, v, mods, enq⟩ =
        some (.error (.Io (ioErrorMsg (dir ++ splitPath import_path))))) ∧
    (pathStr (dir ++ splitPath import_path)).data <:+:
      (ioErrorMsg (dir ++ splitPath import_path)).data := by
  have hjnone : normalise_file_path fs (dir ++ splitPath import_path) = none :=
    hcand _ (by simp [c4Candidates])
  have hread : read_to_string fs (dir ++ splitPath import_path) = none :=
    (read_eq_none_iff fs _).mpr (normalise_eq_none fs _ hjnone)
  refine ⟨?_, hread, ?_, ?_⟩
  · rw [resolveAmended_eq]
    unfold resolveAmendedC4
    rw [if_pos hrel, hpd]
    simp only [Option.some.injEq]
    rw [List.filterMap_eq_nil.mpr hcand]
    rfl
  · intro fuel q v mods enq hv
    simp [buildLoop, hv, hread]
  · exact ⟨"Failed to read file at '".data, "': No such file or directory".data,
      by simp [ioErrorMsg, String.data_append]⟩

/-- The importer of the C7 witness scenario. -/
def missEntry : FPath := ["lib", "src", "index.d.ts"]

/-- The raw joined path for `./missing-file` from the importer. -/
def missJoined : FPath := ["lib", "src", ".", "missing-file"]

/-- Filesystem of the C7 witness: `lib/src/index.d.ts` imports
`./missing-file`, which exists under no resolution rule. -/
def missFs : VFS :=
  { files := [(missEntry,
      .parsed [.importS [.ident "nonExisting"] "./missing-file"])],
    dirs := [[], ["lib"], ["lib", "src"]] }

/-- Witness for `c7_unresolved_fallback` on the `./missing-file` scenario,
together with the end-to-end run: graph building fails with an `Io` error
embedding the missing path. -/
theorem c7_unresolved_fallback_witness :
    (resolve_relative_import missFs missEntry "./missing-file" = some missJoined ∧
     read_to_string missFs missJoined = none ∧
     (∀ (fuel : Nat) (q v : List FPath) (mods : List (FPath × Module))
         (enq : List FPath), missJoined ∉ v →
       buildLoop missFs (fuel + 1) ⟨missJoined :: q, v, mods, enq⟩ =
         some (.error (.Io (ioErrorMsg missJoined)))) ∧
     (pathStr missJoined).data <:+: (ioErrorMsg missJoined).data) ∧
    from_entrypoints missFs [missEntry] =
      some (.error (.Io (ioErrorMsg missJoined))) :=
  ⟨c7_unresolved_fallback missFs missEntry "./missing-file" ["lib", "src"]
      (by decide) rfl (by decide), rfl⟩

/-- C8: a dequeued unvisited file that cannot be read makes the whole
graph-building call return at once with an `Io` error whose message embeds
the offending path, whatever else is queued or already built; a dequeued
file that fails to parse likewise aborts the whole call with the
`Malformed` error; and an error outcome carries no `ModuleSet` at all (no
partial result). -/
theorem c8_errors_abort (fs : VFS) (fuel : Nat) (p : FPath) (q v : List FPath)
    (mods : List (FPath × Module)) (enq : List FPath) (hv : p ∉ v) :
    (read_to_string fs p = none →
      buildLoop fs (fuel + 1) ⟨p :: q, v, mods, enq⟩ =
        some (.error (.Io (ioErrorMsg p))) ∧
      (pathStr p).data <:+: (ioErrorMsg p).data) ∧
    (read_to_string fs p = some .malformed →
      buildLoop fs (fuel + 1) ⟨p :: q, v, mods, enq⟩ =
        some (.error (.Malformed "Failed to parse source file"))) ∧
    (∀ e : ExtractionError, okKeys (some (.error e)) = []) := by
  refine ⟨?_, ?_, fun e => rfl⟩
  · intro hread
    refine ⟨by simp [buildLoop, hv, hread], ?_⟩
    exact ⟨"Failed to read file at '".data, "': No such file or directory".data,
      by simp [ioErrorMsg, String.data_append]⟩
  · intro hread
    simp [buildLoop, hv, hread, parse_typescript_file]

/-- Filesystem of the C8 witness: one malformed file. -/
def malFs : VFS :=
  { files := [(["lib", "bad.d.ts"], .malformed)], dirs := [[], ["lib"]] }

/-- Witness for `c8_errors_abort`: an unreadable dequeued path aborts with
the `Io` error naming it, and a malformed dequeued file aborts with the
`Malformed` error. -/
theorem c8_errors_abort_witness :
    (buildLoop ncFs 1 ⟨[["lib", "missing.d.ts"]], [], [], [["lib", "missing.d.ts"]]⟩ =
        some (.error (.Io (ioErrorMsg ["lib", "missing.d.ts"]))) ∧
      (pathStr ["lib", "missing.d.ts"]).data <:+:
        (ioErrorMsg ["lib", "missing.d.ts"]).data) ∧
    buildLoop malFs 1 ⟨[["lib", "bad.d.ts"]], [], [], [["lib", "bad.d.ts"]]⟩ =
      some (.error (.Malformed "Failed to parse source file")) :=
  ⟨(c8_errors_abort ncFs 0 ["lib", "missing.d.ts"] [] [] [] [["lib", "missing.d.ts"]]
      (by decide)).1 rfl,
   (c8_errors_abort malFs 0 ["lib", "bad.d.ts"] [] [] [] [["lib", "bad.d.ts"]]
      (by decide)).2.1 rfl⟩

end TSExtractor
